import Mathlib

/-!
Verification of the powerlocks synchronization library.

Shallow embedding of the core algorithms:
 - the FIFO fair strategy (`src/rwlock/strategies.rs`),
 - the queue scheduler of the strategied reader/writer lock
   (`src/strategied_rwlock/impls.rs`),
 - the counter-based primitive reader/writer lock (`src/rwlock/impls.rs`),
 - the spinning mutex (`src/mutex/mod.rs`).

Handles are modelled by their `HandleId` (the scheduler only ever compares ids
for equality); iterators are modelled by lists; in-place mutation is modelled
by explicit state passing.  `usize` values are modelled as `Nat`, with the
platform word range passed explicitly where overflow or `usize::MAX` matters.
-/

namespace Powerlocks

/-- Identity of a thread-like actor (`HandleId` wraps a `u128`; only equality
of ids is ever used by the scheduler, so we model ids as `Nat`). -/
abbrev HandleId := Nat

/-- Operation kind of a waiter (`Method` in `src/rwlock/mod.rs`). -/
inductive Method
  | Read
  | Write
deriving DecidableEq, Repr

/-- Returns true on `Method::Read` (`Method::is_read`). -/
def Method.is_read : Method → Bool
  | .Read => true
  | .Write => false

/-- Returns true on `Method::Write` (`Method::is_write`). -/
def Method.is_write : Method → Bool
  | .Read => false
  | .Write => true

/-- Admission state of a waiter (`State` in `src/rwlock/mod.rs`). -/
inductive State
  | Ok
  | Blocked
deriving DecidableEq, Repr

/-- Returns true on `State::Ok` (`State::is_ok`). -/
def State.is_ok : State → Bool
  | .Ok => true
  | .Blocked => false

/-- Returns true on `State::Blocked` (`State::is_blocked`). -/
def State.is_blocked : State → Bool
  | .Ok => false
  | .Blocked => true

/-- A strategy maps the enqueue-ordered snapshot of `(HandleId, Method)` pairs
to a sequence of states (`Strategy` in `src/rwlock/mod.rs`; iterators are
modelled as lists). -/
abbrev Strategy := List (HandleId × Method) → List State

/-- Accumulator of the `fair` strategy (`CombinedState` in
`src/rwlock/strategies.rs`). -/
structure CombinedState where
  collection : List State
  future_read : State
  future_write : State
deriving DecidableEq, Repr

/-- One iteration of the `for_each` loop inside `fair`
(`src/rwlock/strategies.rs`). -/
def fairStep (state : CombinedState) (entry : HandleId × Method) : CombinedState :=
  match entry.2 with
  | .Read =>
      { state with
        collection := state.collection ++ [state.future_read]
        future_write := .Blocked }
  | .Write =>
      { state with
        collection := state.collection ++ [state.future_write]
        future_read := .Blocked
        future_write := .Blocked }

/-- The FIFO fair strategy (`fair` in `src/rwlock/strategies.rs`). -/
def fair (entries : List (HandleId × Method)) : List State :=
  (entries.foldl fairStep ⟨[], .Ok, .Ok⟩).collection

/-- Recursive presentation of the `fair` loop: given the current
`future_read`/`future_write` gates, emit the remaining states. -/
def fairAux : State → State → List (HandleId × Method) → List State
  | _, _, [] => []
  | fr, fw, e :: l =>
      match e.2 with
      | .Read => fr :: fairAux fr .Blocked l
      | .Write => fw :: fairAux .Blocked .Blocked l

lemma foldl_fairStep_collection (l : List (HandleId × Method)) :
    ∀ (c : List State) (fr fw : State),
      (l.foldl fairStep ⟨c, fr, fw⟩).collection
        = c ++ (l.foldl fairStep ⟨[], fr, fw⟩).collection := by
  induction l with
  | nil => intro c fr fw; simp [List.foldl]
  | cons e t ih =>
      intro c fr fw
      rcases e with ⟨id, m⟩
      cases m
      · show (t.foldl fairStep ⟨c ++ [fr], fr, .Blocked⟩).collection = _
        rw [ih (c ++ [fr]) fr .Blocked]
        show _ = c ++ (t.foldl fairStep ⟨[] ++ [fr], fr, .Blocked⟩).collection
        rw [ih ([] ++ [fr]) fr .Blocked]
        simp
      · show (t.foldl fairStep ⟨c ++ [fw], .Blocked, .Blocked⟩).collection = _
        rw [ih (c ++ [fw]) .Blocked .Blocked]
        show _ = c ++ (t.foldl fairStep ⟨[] ++ [fw], .Blocked, .Blocked⟩).collection
        rw [ih ([] ++ [fw]) .Blocked .Blocked]
        simp

lemma foldl_fairStep_eq_fairAux (l : List (HandleId × Method)) :
    ∀ (fr fw : State),
      (l.foldl fairStep ⟨[], fr, fw⟩).collection = fairAux fr fw l := by
  induction l with
  | nil => intro fr fw; simp [List.foldl, fairAux]
  | cons e t ih =>
      intro fr fw
      rcases e with ⟨id, m⟩
      cases m
      · show (t.foldl fairStep ⟨[] ++ [fr], fr, .Blocked⟩).collection = _
        rw [foldl_fairStep_collection, ih fr .Blocked]
        simp [fairAux]
      · show (t.foldl fairStep ⟨[] ++ [fw], .Blocked, .Blocked⟩).collection = _
        rw [foldl_fairStep_collection, ih .Blocked .Blocked]
        simp [fairAux]

lemma fair_eq_fairAux (l : List (HandleId × Method)) :
    fair l = fairAux .Ok .Ok l :=
  foldl_fairStep_eq_fairAux l .Ok .Ok

lemma fairAux_length (l : List (HandleId × Method)) :
    ∀ (fr fw : State), (fairAux fr fw l).length = l.length := by
  induction l with
  | nil => intro fr fw; simp [fairAux]
  | cons e t ih =>
      intro fr fw
      rcases e with ⟨id, m⟩
      cases m <;> simp [fairAux, ih]

lemma fair_length (l : List (HandleId × Method)) : (fair l).length = l.length := by
  rw [fair_eq_fairAux]; exact fairAux_length l .Ok .Ok

lemma fairAux_get (l : List (HandleId × Method)) :
    ∀ (fr fw : State) (i : Nat) (hi : i < l.length)
      (hfi : i < (fairAux fr fw l).length),
      ((l.get ⟨i, hi⟩).2 = Method.Read →
        ((fairAux fr fw l).get ⟨i, hfi⟩ = State.Ok ↔
          (fr = State.Ok ∧ ∀ (j : Nat) (hj : j < i),
            (l.get ⟨j, hj.trans hi⟩).2 = Method.Read))) ∧
      ((l.get ⟨i, hi⟩).2 = Method.Write →
        ((fairAux fr fw l).get ⟨i, hfi⟩ = State.Ok ↔
          (fw = State.Ok ∧ i = 0))) := by
  induction l with
  | nil => intro fr fw i hi; exact absurd hi (by simp)
  | cons e t ih =>
      intro fr fw i hi hfi
      rcases e with ⟨id, m⟩
      cases m
      · -- head is a Read: output is `fr`, gates become (fr, Blocked)
        cases i with
        | zero =>
            constructor
            · intro _
              simp only [fairAux, List.get]
              constructor
              · intro h
                refine ⟨h, ?_⟩
                intro j hj; exact absurd hj (Nat.not_lt_zero j)
              · intro h; exact h.1
            · intro h; simp [List.get] at h
        | succ k =>
            have hk : k < t.length := by
              simpa [Nat.succ_lt_succ_iff] using hi
            have hfk : k < (fairAux fr .Blocked t).length := by
              rw [fairAux_length]; exact hk
            have ihk := ih fr .Blocked k hk hfk
            constructor
            · intro hread
              have hread' : (t.get ⟨k, hk⟩).2 = Method.Read := by
                simpa [List.get] using hread
              have := ihk.1 hread'
              simp only [fairAux, List.get]
              rw [this]
              constructor
              · rintro ⟨h1, h2⟩
                refine ⟨h1, ?_⟩
                intro j hj
                cases j with
                | zero => simp [List.get]
                | succ j' =>
                    have hj' : j' < k := by
                      simpa [Nat.succ_lt_succ_iff] using hj
                    simpa [List.get] using h2 j' hj'
              · rintro ⟨h1, h2⟩
                refine ⟨h1, ?_⟩
                intro j hj
                have := h2 (j + 1) (by simpa [Nat.succ_lt_succ_iff] using hj)
                simpa [List.get] using this
            · intro hwrite
              have hwrite' : (t.get ⟨k, hk⟩).2 = Method.Write := by
                simpa [List.get] using hwrite
              have := ihk.2 hwrite'
              simp only [fairAux, List.get]
              rw [this]
              constructor
              · rintro ⟨h1, h2⟩; cases h1
              · rintro ⟨h1, h2⟩; exact absurd h2 (by simp)
      · -- head is a Write: output is `fw`, gates become (Blocked, Blocked)
        cases i with
        | zero =>
            constructor
            · intro h; simp [List.get] at h
            · intro _
              simp only [fairAux, List.get]
              constructor
              · intro h; exact ⟨h, by trivial⟩
              · intro h; exact h.1
        | succ k =>
            have hk : k < t.length := by
              simpa [Nat.succ_lt_succ_iff] using hi
            have hfk : k < (fairAux .Blocked .Blocked t).length := by
              rw [fairAux_length]; exact hk
            have ihk := ih .Blocked .Blocked k hk hfk
            constructor
            · intro hread
              have hread' : (t.get ⟨k, hk⟩).2 = Method.Read := by
                simpa [List.get] using hread
              have := ihk.1 hread'
              simp only [fairAux, List.get]
              rw [this]
              constructor
              · rintro ⟨h1, _⟩; cases h1
              · rintro ⟨_, h2⟩
                have := h2 0 (Nat.succ_pos k)
                simp [List.get] at this
            · intro hwrite
              have hwrite' : (t.get ⟨k, hk⟩).2 = Method.Write := by
                simpa [List.get] using hwrite
              have := ihk.2 hwrite'
              simp only [fairAux, List.get]
              rw [this]
              constructor
              · rintro ⟨h1, _⟩; cases h1
              · rintro ⟨_, h2⟩; exact absurd h2 (by simp)

/-- C2: the fair strategy returns one output state per input entry in order;
the i-th output of a `Read` entry is `Ok` iff every entry before position i is
a `Read`, and the i-th output of a `Write` entry is `Ok` iff i is the first
position.  Hence a burst of readers at the front is admitted together, a
writer is admitted only at the front, no reader behind a writer is admitted,
and writers serialize in arrival order. -/
theorem fair_strategy_spec (entries : List (HandleId × Method)) :
    (fair entries).length = entries.length ∧
    ∀ (i : Nat) (hi : i < entries.length) (hfi : i < (fair entries).length),
      ((entries.get ⟨i, hi⟩).2 = Method.Read →
        ((fair entries).get ⟨i, hfi⟩ = State.Ok ↔
          ∀ (j : Nat) (hj : j < i),
            (entries.get ⟨j, hj.trans hi⟩).2 = Method.Read)) ∧
      ((entries.get ⟨i, hi⟩).2 = Method.Write →
        ((fair entries).get ⟨i, hfi⟩ = State.Ok ↔ i = 0)) := by
  refine ⟨fair_length entries, ?_⟩
  intro i hi hfi
  have hfi' : i < (fairAux .Ok .Ok entries).length := by
    rw [fairAux_length]; exact hi
  have hchar := fairAux_get entries .Ok .Ok i hi hfi'
  have hget : (fair entries).get ⟨i, hfi⟩ = (fairAux .Ok .Ok entries).get ⟨i, hfi'⟩ :=
    List.get_of_eq (fair_eq_fairAux entries) ⟨i, hfi⟩
  constructor
  · intro hread
    rw [hget, hchar.1 hread]
    constructor
    · rintro ⟨_, h⟩; exact h
    · intro h; exact ⟨rfl, h⟩
  · intro hwrite
    rw [hget, hchar.2 hwrite]
    constructor
    · rintro ⟨_, h⟩; exact h
    · intro h; exact ⟨rfl, h⟩

/-- Witness for C2 at a concrete queue: in `[Read, Read, Write]` the writer at
position 2 is not admitted (position 2 is not the first position). -/
theorem fair_strategy_spec_witness :
    (fair [(1, Method.Read), (2, Method.Read), (3, Method.Write)]).get ⟨2, by decide⟩
      = State.Ok ↔ 2 = 0 :=
  ((fair_strategy_spec [(1, Method.Read), (2, Method.Read), (3, Method.Write)]).2
    2 (by decide) (by decide)).2 (by decide)

/-- Entry of the scheduler's waiter queue (`LockEntry` in
`src/strategied_rwlock/impls.rs`; the `Arc<H>` handle is modelled by its id). -/
structure LockEntry where
  id : HandleId
  method : Method
  state : State
deriving DecidableEq, Repr

/-- Strategy logic errors (`StrategyLogicError` in
`src/strategied_rwlock/impls.rs`). -/
inductive StrategyLogicError
  | ConcurrentReadAndWrite
  | ConcurrentMultipleWrites
  | BlockedAfterOkState
  | BrokenLock
deriving DecidableEq, Repr

/-- How a logic error is handled (`LogicErrorHandlingMethod`). -/
inductive LogicErrorHandlingMethod
  | Panic
  | BreakAndPanic
deriving DecidableEq, Repr

/-- Handling method of each error, from the `error_type!` table: the first
three break the lock and panic, `BrokenLock` panics without breaking. -/
def StrategyLogicError.handling_method : StrategyLogicError → LogicErrorHandlingMethod
  | .ConcurrentReadAndWrite => .BreakAndPanic
  | .ConcurrentMultipleWrites => .BreakAndPanic
  | .BlockedAfterOkState => .BreakAndPanic
  | .BrokenLock => .Panic

/-- Violation flags accumulated by the fold inside
`LockedQueueView::set_and_enforce_preconditions`. -/
structure Violations where
  has_ok_read : Bool
  has_ok_write : Bool
  err_blocked_after_ok_state : Bool
  err_concurrent_read_and_write : Bool
  err_concurent_multiple_writes : Bool
deriving DecidableEq, Repr

/-- The "blocked after ok" correction at the start of the fold body: a
non-current entry that is already `Ok` may not be re-blocked; the incoming
state is forced back to `Ok` and the violation is flagged. -/
def applyFix (current : HandleId) (v : Violations) (entry : LockEntry)
    (incoming : State) : Violations × State :=
  if entry.id != current && entry.state.is_ok && incoming.is_blocked then
    ({ v with err_blocked_after_ok_state := true }, State.Ok)
  else
    (v, incoming)

/-- The per-method flag updates of the fold body (the `match entry.method`
inside `set_and_enforce_preconditions`). -/
def applyFlags (v : Violations) : Method → Violations
  | .Read =>
      { v with
        err_concurrent_read_and_write :=
          v.err_concurrent_read_and_write || v.has_ok_write
        has_ok_read := true }
  | .Write =>
      { v with
        err_concurrent_read_and_write :=
          v.err_concurrent_read_and_write || v.has_ok_read
        err_concurent_multiple_writes :=
          v.err_concurent_multiple_writes || v.has_ok_write
        has_ok_write := true }

/-- Core of the fold body after the "blocked after ok" correction: when the
incoming state is `Ok`, update the flags for the entry's method and demote the
state to `Blocked` if a concurrency violation has been observed. -/
def sepCore (v1 : Violations) (m : Method) (ns1 : State) : Violations × State :=
  if ns1.is_ok then
    let v' := applyFlags v1 m
    if v'.err_concurrent_read_and_write || v'.err_concurent_multiple_writes then
      (v', State.Blocked)
    else
      (v', ns1)
  else
    (v1, ns1)

/-- One iteration of the fold inside `set_and_enforce_preconditions`: the
accumulator carries the violation flags and the already-updated prefix of the
queue (in the source the entries are updated in place). -/
def sepStep (current : HandleId) (acc : Violations × List LockEntry)
    (p : LockEntry × State) : Violations × List LockEntry :=
  let fixed := applyFix current acc.1 p.1 p.2
  let stepped := sepCore fixed.1 p.1.method fixed.2
  (stepped.1, acc.2 ++ [{ p.1 with state := stepped.2 }])

/-- Initial violation flags of the fold. -/
def noViolations : Violations := ⟨false, false, false, false, false⟩

/-- Error selection at the end of `set_and_enforce_preconditions`. -/
def selectError (v : Violations) : Option StrategyLogicError :=
  if v.err_blocked_after_ok_state then some .BlockedAfterOkState
  else if v.err_concurrent_read_and_write then some .ConcurrentReadAndWrite
  else if v.err_concurent_multiple_writes then some .ConcurrentMultipleWrites
  else none

/-- `LockedQueueView::set_and_enforce_preconditions`: zip the queue with the
strategy's output, update every zipped entry's state, enforce the invariants
and report the first violation category.  Entries beyond the zipped prefix
keep their previous states (`iter_mut().zip(..)` stops at the shorter side);
the queue is updated even when an error is reported (the source mutates the
entries in place and only afterwards returns the error). -/
def set_and_enforce_preconditions (current : HandleId) (queue : List LockEntry)
    (new_states : List State) : List LockEntry × Option StrategyLogicError :=
  let folded := (queue.zip new_states).foldl (sepStep current) (noViolations, [])
  (folded.2 ++ queue.drop new_states.length, selectError folded.1)

/-- Result of `LockedQueueView::run_queue_logic`: the updated queue, the
detected logic error if any, and the ids passed to `unpark` (the source
unparks every non-current `Ok` entry, but only when no error was detected —
the `?` operator returns before the unpark loop). -/
structure RunResult where
  queue : List LockEntry
  err : Option StrategyLogicError
  unparks : List HandleId
deriving DecidableEq, Repr

/-- `LockedQueueView::run_queue_logic`: snapshot `(id, method)` pairs, call
the strategy, set-and-enforce, then unpark the admitted non-current entries. -/
def run_queue_logic (strat : Strategy) (current : HandleId)
    (queue : List LockEntry) : RunResult :=
  let handles_and_methods := queue.map (fun e => (e.id, e.method))
  let raw_results := strat handles_and_methods
  let sep := set_and_enforce_preconditions current queue raw_results
  match sep.2 with
  | some e => ⟨sep.1, some e, []⟩
  | none =>
      ⟨sep.1, none,
        ((sep.1.filter (fun e => e.id != current && e.state.is_ok)).map (·.id))⟩

/-- Scheduler state guarded by the queue's spin mutex (`LockedQueue`: the
waiter queue and the sticky `broken` bit; the strategy is passed explicitly). -/
structure SchedState where
  queue : List LockEntry
  broken : Bool
deriving DecidableEq, Repr

/-- The `broken` bit after `handle_logic_err`: `BreakAndPanic` errors set it,
`Panic` errors leave it. -/
def brokenAfter (broken : Bool) (e : StrategyLogicError) : Bool :=
  match e.handling_method with
  | .BreakAndPanic => true
  | .Panic => broken

/-- `LockedQueueView::poll`: the state of the current handle's entry.  The
source unwraps (the entry can only disappear through `try_acquire` or
`release`), so `none` is unreachable there. -/
def poll (queue : List LockEntry) (current : HandleId) : Option State :=
  (queue.find? (fun e => e.id == current)).map (·.state)

deriving instance DecidableEq for Except

/-- Result of a scheduler operation: the new scheduler state, the unparked
ids, and either a value or the logic error the operation panicked with. -/
structure StepResult (α : Type) where
  state : SchedState
  unparks : List HandleId
  result : Except StrategyLogicError α
deriving DecidableEq, Repr

/-- `LockedQueueView::do_acquire`: assert the lock is not broken (panicking
with `BrokenLock` otherwise), push a fresh `Blocked` entry, run the queue
logic (breaking the lock and panicking on a logic error), and poll the new
entry's state.  The fresh handle is modelled by its id `newId`. -/
def do_acquire (strat : Strategy) (s : SchedState) (newId : HandleId)
    (m : Method) : StepResult State :=
  if s.broken then
    ⟨s, [], .error .BrokenLock⟩
  else
    let q1 := s.queue ++ [⟨newId, m, .Blocked⟩]
    let r := run_queue_logic strat newId q1
    match r.err with
    | some e => ⟨⟨r.queue, brokenAfter s.broken e⟩, r.unparks, .error e⟩
    | none =>
        ⟨⟨r.queue, s.broken⟩, r.unparks,
          .ok ((poll r.queue newId).getD State.Blocked)⟩

/-- `LockedQueueView::try_acquire`: `do_acquire`, then on a `Blocked` outcome
pop the just-pushed entry (it is necessarily last) and report `WouldBlock`
(modelled as `.ok none`); an `Ok` outcome returns the handle. -/
def try_acquire (strat : Strategy) (s : SchedState) (newId : HandleId)
    (m : Method) : StepResult (Option HandleId) :=
  let r := do_acquire strat s newId m
  match r.result with
  | .error e => ⟨r.state, r.unparks, .error e⟩
  | .ok st =>
      if st.is_blocked then
        ⟨⟨r.state.queue.dropLast, r.state.broken⟩, r.unparks, .ok none⟩
      else
        ⟨r.state, r.unparks, .ok (some newId)⟩

/-- Removal by id as performed by `LockedQueueView::release`: linear search
for the first entry with the releasing handle's id, then `remove`. -/
def removeFirstById (queue : List LockEntry) (id : HandleId) : List LockEntry :=
  match queue.findIdx? (fun e => e.id == id) with
  | some i => queue.eraseIdx i
  | none => queue

/-- Outcome of `LockedQueueView::release`: normal return, the panic of
`result.unwrap()` when the entry is missing on a non-broken lock, or a
strategy logic error (which panics via `handle_logic_err`). -/
inductive ReleaseOutcome
  | ok
  | missingEntry
  | logicErr (e : StrategyLogicError)
deriving DecidableEq, Repr

/-- `LockedQueueView::release`: remove the releasing handle's entry; on a
broken lock stop there (best effort, no unwrap, no strategy); otherwise the
removal must have succeeded (`unwrap`), and the queue logic is re-run. -/
def release (strat : Strategy) (s : SchedState) (current : HandleId) :
    SchedState × List HandleId × ReleaseOutcome :=
  let found := (s.queue.findIdx? (fun e => e.id == current)).isSome
  let q1 := removeFirstById s.queue current
  if s.broken then
    (⟨q1, s.broken⟩, [], .ok)
  else if !found then
    (⟨q1, s.broken⟩, [], .missingEntry)
  else
    let r := run_queue_logic strat current q1
    match r.err with
    | some e => (⟨r.queue, brokenAfter s.broken e⟩, r.unparks, .logicErr e)
    | none => (⟨r.queue, s.broken⟩, r.unparks, .ok)

/-- True of an entry holding the lock for writing. -/
def okWriteEntry (e : LockEntry) : Bool := e.state.is_ok && e.method.is_write

/-- True of an entry holding the lock for reading. -/
def okReadEntry (e : LockEntry) : Bool := e.state.is_ok && e.method.is_read

/-- Admissibility of a queue (invariants I1 and I2 of the specification): at
most one `Ok` writer, and never an `Ok` writer together with an `Ok` reader. -/
def Admissible (q : List LockEntry) : Prop :=
  q.countP okWriteEntry ≤ 1 ∧ ¬(q.any okWriteEntry ∧ q.any okReadEntry)

instance (q : List LockEntry) : Decidable (Admissible q) :=
  inferInstanceAs
    (Decidable (q.countP okWriteEntry ≤ 1 ∧ ¬(q.any okWriteEntry ∧ q.any okReadEntry)))

lemma applyFix_preserves (cur : HandleId) (v : Violations) (e : LockEntry)
    (inc : State) :
    (applyFix cur v e inc).1.has_ok_read = v.has_ok_read ∧
    (applyFix cur v e inc).1.has_ok_write = v.has_ok_write ∧
    (applyFix cur v e inc).1.err_concurrent_read_and_write
        = v.err_concurrent_read_and_write ∧
    (applyFix cur v e inc).1.err_concurent_multiple_writes
        = v.err_concurent_multiple_writes := by
  unfold applyFix
  split <;> simp

/-- Invariant of the fold inside `set_and_enforce_preconditions`: the
processed prefix is admissible, and while no concurrency violation has been
flagged, the `has_ok_read`/`has_ok_write` flags reflect the processed prefix
and are never both set. -/
def SepInv (acc : Violations × List LockEntry) : Prop :=
  Admissible acc.2 ∧
  (acc.1.err_concurrent_read_and_write = false →
    acc.1.err_concurent_multiple_writes = false →
      acc.2.any okWriteEntry = acc.1.has_ok_write ∧
      acc.2.any okReadEntry = acc.1.has_ok_read ∧
      ¬(acc.1.has_ok_read = true ∧ acc.1.has_ok_write = true))

lemma countP_eq_zero_of_any_eq_false {q : List LockEntry}
    {p : LockEntry → Bool} (h : q.any p = false) : q.countP p = 0 := by
  rw [List.countP_eq_zero]
  intro a ha
  simp only [List.any_eq_false] at h
  exact h a ha

lemma sepCore_blocked (v1 : Violations) (m : Method) :
    sepCore v1 m State.Blocked = (v1, State.Blocked) := rfl

lemma sepCore_ok_read (v1 : Violations) :
    sepCore v1 Method.Read State.Ok =
      (applyFlags v1 Method.Read,
        if ((v1.err_concurrent_read_and_write || v1.has_ok_write)
            || v1.err_concurent_multiple_writes) = true
        then State.Blocked else State.Ok) := by
  simp only [sepCore, applyFlags, State.is_ok, if_true]
  split
  · rfl
  · rfl

lemma sepCore_ok_write (v1 : Violations) :
    sepCore v1 Method.Write State.Ok =
      (applyFlags v1 Method.Write,
        if ((v1.err_concurrent_read_and_write || v1.has_ok_read)
            || (v1.err_concurent_multiple_writes || v1.has_ok_write)) = true
        then State.Blocked else State.Ok) := by
  simp only [sepCore, applyFlags, State.is_ok, if_true]
  split
  · rfl
  · rfl

lemma admissible_append_not_ok {done : List LockEntry} (e : LockEntry)
    (hadm : Admissible done) (hs : e.state = State.Blocked) :
    Admissible (done ++ [e]) := by
  constructor
  · rw [List.countP_append]
    simpa [okWriteEntry, hs, State.is_ok] using hadm.1
  · intro hc
    rcases hc with ⟨hcw, hcr⟩
    simp only [List.any_append, Bool.or_eq_true, List.any_cons, List.any_nil,
      okWriteEntry, okReadEntry, hs, State.is_ok, Bool.false_and,
      Bool.or_false] at hcw hcr
    exact hadm.2 ⟨by simpa using hcw, by simpa using hcr⟩

lemma sepCore_inv (v1 : Violations) (done : List LockEntry) (eid : HandleId)
    (m : Method) (ns1 : State)
    (hadm : Admissible done)
    (hflags : v1.err_concurrent_read_and_write = false →
      v1.err_concurent_multiple_writes = false →
        done.any okWriteEntry = v1.has_ok_write ∧
        done.any okReadEntry = v1.has_ok_read ∧
        ¬(v1.has_ok_read = true ∧ v1.has_ok_write = true)) :
    SepInv ((sepCore v1 m ns1).1,
      done ++ [⟨eid, m, (sepCore v1 m ns1).2⟩]) := by
  cases ns1 with
  | Blocked =>
      rw [sepCore_blocked]
      dsimp only
      refine ⟨admissible_append_not_ok _ hadm rfl, ?_⟩
      intro h1 h2
      obtain ⟨hbw, hbr, hbn⟩ := hflags h1 h2
      refine ⟨?_, ?_, hbn⟩
      · simp [List.any_append, okWriteEntry, State.is_ok, hbw]
      · simp [List.any_append, okReadEntry, State.is_ok, hbr]
  | Ok =>
      cases m with
      | Read =>
          rw [sepCore_ok_read]
          dsimp only
          by_cases herr :
            ((v1.err_concurrent_read_and_write || v1.has_ok_write)
              || v1.err_concurent_multiple_writes) = true
          · rw [if_pos herr]
            refine ⟨admissible_append_not_ok _ hadm rfl, ?_⟩
            intro h1 h2
            exfalso
            have h1' : (v1.err_concurrent_read_and_write || v1.has_ok_write)
                = false := h1
            have h2' : v1.err_concurent_multiple_writes = false := h2
            rw [h1', h2'] at herr
            cases herr
          · rw [if_neg herr]
            have herr' :
                (v1.err_concurrent_read_and_write = false ∧
                  v1.has_ok_write = false) ∧
                v1.err_concurent_multiple_writes = false := by
              simpa [not_or] using herr
            obtain ⟨⟨hcrw1, hww⟩, hcmw1⟩ := herr'
            obtain ⟨hbw, hbr, _⟩ := hflags hcrw1 hcmw1
            have hdw : done.any okWriteEntry = false := by rw [hbw]; exact hww
            constructor
            · constructor
              · rw [List.countP_append]
                simpa [okWriteEntry, Method.is_write, State.is_ok]
                  using hadm.1
              · intro hc
                rcases hc with ⟨hcw, _⟩
                simp [List.any_append, okWriteEntry, State.is_ok,
                  Method.is_write, hdw] at hcw
            · intro _ _
              refine ⟨?_, ?_, ?_⟩
              · have h1' : (applyFlags v1 Method.Read).has_ok_write
                    = v1.has_ok_write := rfl
                rw [h1']
                simp [List.any_append, okWriteEntry, State.is_ok,
                  Method.is_write, hdw, hww]
              · have h2' : (applyFlags v1 Method.Read).has_ok_read
                    = true := rfl
                rw [h2']
                simp [List.any_append, okReadEntry, State.is_ok,
                  Method.is_read]
              · intro hcon
                have : (applyFlags v1 Method.Read).has_ok_write
                    = v1.has_ok_write := rfl
                rw [this, hww] at hcon
                cases hcon.2
      | Write =>
          rw [sepCore_ok_write]
          dsimp only
          by_cases herr :
            ((v1.err_concurrent_read_and_write || v1.has_ok_read)
              || (v1.err_concurent_multiple_writes || v1.has_ok_write))
              = true
          · rw [if_pos herr]
            refine ⟨admissible_append_not_ok _ hadm rfl, ?_⟩
            intro h1 h2
            exfalso
            have h1' : (v1.err_concurrent_read_and_write || v1.has_ok_read)
                = false := h1
            have h2' : (v1.err_concurent_multiple_writes || v1.has_ok_write)
                = false := h2
            rw [h1', h2'] at herr
            cases herr
          · rw [if_neg herr]
            have herr' :
                (v1.err_concurrent_read_and_write = false ∧
                  v1.has_ok_read = false) ∧
                v1.err_concurent_multiple_writes = false ∧
                v1.has_ok_write = false := by
              simpa [not_or] using herr
            obtain ⟨⟨hcrw1, hrr⟩, hcmw1, hww⟩ := herr'
            obtain ⟨hbw, hbr, _⟩ := hflags hcrw1 hcmw1
            have hdw : done.any okWriteEntry = false := by rw [hbw]; exact hww
            have hdr : done.any okReadEntry = false := by rw [hbr]; exact hrr
            constructor
            · constructor
              · rw [List.countP_append]
                have hz : done.countP okWriteEntry = 0 :=
                  countP_eq_zero_of_any_eq_false hdw
                have ho : List.countP okWriteEntry
                    [(⟨eid, Method.Write, State.Ok⟩ : LockEntry)] = 1 := by
                  simp [okWriteEntry, Method.is_write, State.is_ok]
                omega
              · intro hc
                rcases hc with ⟨_, hcr⟩
                simp [List.any_append, okReadEntry, State.is_ok,
                  Method.is_read, hdr] at hcr
            · intro _ _
              refine ⟨?_, ?_, ?_⟩
              · have h1' : (applyFlags v1 Method.Write).has_ok_write
                    = true := rfl
                rw [h1']
                simp [List.any_append, okWriteEntry, State.is_ok,
                  Method.is_write]
              · have h2' : (applyFlags v1 Method.Write).has_ok_read
                    = v1.has_ok_read := rfl
                rw [h2']
                simp [List.any_append, okReadEntry, State.is_ok,
                  Method.is_read, hdr, hrr]
              · intro hcon
                have : (applyFlags v1 Method.Write).has_ok_read
                    = v1.has_ok_read := rfl
                rw [this, hrr] at hcon
                cases hcon.1

lemma sepStep_inv (cur : HandleId) (acc : Violations × List LockEntry)
    (p : LockEntry × State) (h : SepInv acc) : SepInv (sepStep cur acc p) := by
  rcases acc with ⟨v, done⟩
  rcases p with ⟨entry, incoming⟩
  rcases entry with ⟨eid, em, es⟩
  rcases h with ⟨hadm, hflags⟩
  obtain ⟨hr, hw, hcrw, hcmw⟩ :=
    applyFix_preserves cur v ⟨eid, em, es⟩ incoming
  have hflags' :
      (applyFix cur v ⟨eid, em, es⟩ incoming).1.err_concurrent_read_and_write
        = false →
      (applyFix cur v ⟨eid, em, es⟩ incoming).1.err_concurent_multiple_writes
        = false →
        done.any okWriteEntry
          = (applyFix cur v ⟨eid, em, es⟩ incoming).1.has_ok_write ∧
        done.any okReadEntry
          = (applyFix cur v ⟨eid, em, es⟩ incoming).1.has_ok_read ∧
        ¬((applyFix cur v ⟨eid, em, es⟩ incoming).1.has_ok_read = true ∧
          (applyFix cur v ⟨eid, em, es⟩ incoming).1.has_ok_write = true) := by
    rw [hr, hw, hcrw, hcmw]
    exact hflags
  exact sepCore_inv _ done eid em _ hadm hflags'

lemma foldl_sepStep_inv (cur : HandleId) (l : List (LockEntry × State)) :
    ∀ (acc : Violations × List LockEntry),
      SepInv acc → SepInv (l.foldl (sepStep cur) acc) := by
  induction l with
  | nil => intro acc h; exact h
  | cons p t ih => intro acc h; exact ih _ (sepStep_inv cur acc p h)

lemma sepInv_init : SepInv (noViolations, ([] : List LockEntry)) := by
  constructor
  · exact ⟨by simp, by simp⟩
  · intro _ _
    exact ⟨by simp [noViolations], by simp [noViolations], by simp [noViolations]⟩

lemma sep_admissible (cur : HandleId) (queue : List LockEntry)
    (new_states : List State) (hlen : queue.length ≤ new_states.length) :
    Admissible (set_and_enforce_preconditions cur queue new_states).1 := by
  have h := foldl_sepStep_inv cur (queue.zip new_states) _ sepInv_init
  have hdrop : queue.drop new_states.length = [] :=
    List.drop_eq_nil_of_le hlen
  show Admissible
    (((queue.zip new_states).foldl (sepStep cur) (noViolations, [])).2
      ++ queue.drop new_states.length)
  rw [hdrop, List.append_nil]
  exact h.1



lemma run_queue_logic_queue (strat : Strategy) (cur : HandleId)
    (queue : List LockEntry) :
    (run_queue_logic strat cur queue).queue
      = (set_and_enforce_preconditions cur queue
          (strat (queue.map fun e => (e.id, e.method)))).1 := by
  simp only [run_queue_logic]
  cases h : (set_and_enforce_preconditions cur queue
      (strat (queue.map fun e => (e.id, e.method)))).2 <;> simp [h]

lemma run_queue_logic_err (strat : Strategy) (cur : HandleId)
    (queue : List LockEntry) :
    (run_queue_logic strat cur queue).err
      = (set_and_enforce_preconditions cur queue
          (strat (queue.map fun e => (e.id, e.method)))).2 := by
  simp only [run_queue_logic]
  cases h : (set_and_enforce_preconditions cur queue
      (strat (queue.map fun e => (e.id, e.method)))).2 <;> simp [h]

lemma admissible_sublist {q' q : List LockEntry} (hs : q'.Sublist q)
    (h : Admissible q) : Admissible q' := by
  constructor
  · exact le_trans (hs.countP_le okWriteEntry) h.1
  · intro hc
    rcases hc with ⟨hw, hr⟩
    refine h.2 ⟨?_, ?_⟩
    · rw [List.any_eq_true] at hw ⊢
      obtain ⟨x, hx, hpx⟩ := hw
      exact ⟨x, hs.subset hx, hpx⟩
    · rw [List.any_eq_true] at hr ⊢
      obtain ⟨x, hx, hpx⟩ := hr
      exact ⟨x, hs.subset hx, hpx⟩

lemma do_acquire_state_queue (strat : Strategy) (s : SchedState)
    (newId : HandleId) (m : Method) (hb : s.broken = false) :
    (do_acquire strat s newId m).state.queue
      = (run_queue_logic strat newId
          (s.queue ++ [⟨newId, m, State.Blocked⟩])).queue := by
  simp only [do_acquire, hb, Bool.false_eq_true, if_false]
  cases h : (run_queue_logic strat newId
      (s.queue ++ [⟨newId, m, State.Blocked⟩])).err <;> simp [h]

/-- C1 (amended): after every strategy invocation performed by acquire,
try_acquire, or release — including invocations whose validation detects a
strategy logic error — the entries' states are admissible (at most one `Ok`
writer and never an `Ok` writer together with an `Ok` reader), provided the
strategy returns at least one output state per entry.  (The source performs
no length check: a shorter output leaves the unzipped tail's states
untouched, which can break admissibility — see the counterexample.) -/
theorem scheduler_states_admissible (strat : Strategy)
    (hlen : ∀ inp, inp.length ≤ (strat inp).length)
    (s : SchedState) (newId rid : HandleId) (m : Method)
    (hb : s.broken = false) :
    Admissible (do_acquire strat s newId m).state.queue ∧
    Admissible (try_acquire strat s newId m).state.queue ∧
    ((s.queue.findIdx? (fun e => e.id == rid)).isSome = true →
      Admissible (release strat s rid).1.queue) := by
  have hrun : ∀ (cur : HandleId) (q : List LockEntry),
      Admissible (run_queue_logic strat cur q).queue := by
    intro cur q
    rw [run_queue_logic_queue]
    apply sep_admissible
    have := hlen (q.map fun e => (e.id, e.method))
    simpa using this
  have hacq : Admissible (do_acquire strat s newId m).state.queue := by
    rw [do_acquire_state_queue strat s newId m hb]
    exact hrun _ _
  refine ⟨hacq, ?_, ?_⟩
  · simp only [try_acquire]
    cases hres : (do_acquire strat s newId m).result with
    | error e => exact hacq
    | ok st =>
        by_cases hblk : st.is_blocked = true
        · simp only [hblk, if_true]
          exact admissible_sublist (List.dropLast_sublist _) hacq
        · simp only [hblk, if_false]
          exact hacq
  · intro hfound
    simp only [release, hb, Bool.false_eq_true, if_false, hfound,
      Bool.not_true, if_false]
    cases h : (run_queue_logic strat rid (removeFirstById s.queue rid)).err
      <;> simp [h] <;> exact hrun _ _

/-- Witness for C1 at a concrete input: the always-blocking strategy (whose
output always has the input's length) keeps a one-reader queue admissible. -/
theorem scheduler_states_admissible_witness :
    Admissible (do_acquire (fun inp => inp.map fun _ => State.Blocked)
      ⟨[⟨1, Method.Read, State.Ok⟩], false⟩ 2 Method.Read).state.queue :=
  (scheduler_states_admissible (fun inp => inp.map fun _ => State.Blocked)
    (fun inp => by simp) ⟨[⟨1, Method.Read, State.Ok⟩], false⟩ 2 1
    Method.Read rfl).1

/-- Strategy refuting C1 as literally stated: it returns a single `Ok` when
three waiters are queued, so the third invocation's output is shorter than
the queue. -/
def shortStrategy : Strategy := fun inp =>
  match inp.length with
  | 1 => [State.Blocked]
  | 2 => [State.Blocked, State.Ok]
  | _ => [State.Ok]

/-- Counterexample to C1 as literally stated: acquiring Read(1), Write(2),
Read(3) under `shortStrategy` reaches the queue
`[Read(1)=Ok, Write(2)=Ok, Read(3)=Blocked]` — an `Ok` writer coexists with
an `Ok` reader — while no strategy logic error is detected and the lock is
not broken.  The third invocation's output (length 1) is shorter than the
queue (length 3), and the unzipped tail keeps its previous states. -/
theorem scheduler_states_admissible_counterexample :
    (do_acquire shortStrategy
        (do_acquire shortStrategy
          (do_acquire shortStrategy ⟨[], false⟩ 1 Method.Read).state
          2 Method.Write).state
        3 Method.Read).result = Except.ok State.Blocked ∧
    (do_acquire shortStrategy
        (do_acquire shortStrategy
          (do_acquire shortStrategy ⟨[], false⟩ 1 Method.Read).state
          2 Method.Write).state
        3 Method.Read).state.broken = false ∧
    ¬ Admissible (do_acquire shortStrategy
        (do_acquire shortStrategy
          (do_acquire shortStrategy ⟨[], false⟩ 1 Method.Read).state
          2 Method.Write).state
        3 Method.Read).state.queue := by
  decide

lemma selectError_ne_broken (v : Violations) :
    selectError v ≠ some StrategyLogicError.BrokenLock := by
  unfold selectError
  split_ifs <;> simp

lemma sepStep_snd (cur : HandleId) (acc : Violations × List LockEntry)
    (p : LockEntry × State) :
    (sepStep cur acc p).2
      = acc.2 ++ [{ p.1 with state :=
          (sepCore (applyFix cur acc.1 p.1 p.2).1 p.1.method
            (applyFix cur acc.1 p.1 p.2).2).2 }] := rfl

lemma foldl_sepStep_length (cur : HandleId) (l : List (LockEntry × State)) :
    ∀ (v : Violations) (done : List LockEntry),
      ((l.foldl (sepStep cur) (v, done)).2).length = done.length + l.length := by
  induction l with
  | nil => intro v done; simp
  | cons p t ih =>
      intro v done
      show ((t.foldl (sepStep cur) (sepStep cur (v, done) p)).2).length = _
      rcases h : sepStep cur (v, done) p with ⟨v', done'⟩
      have hlen : done'.length = done.length + 1 := by
        have h2 := congrArg Prod.snd h
        rw [sepStep_snd] at h2
        simp only [Prod.snd] at h2
        rw [← h2]
        simp
      rw [ih v' done', hlen, List.length_cons]
      omega

lemma drop_length_min (queue : List LockEntry) (n : Nat) :
    queue.drop n = queue.drop (min queue.length n) := by
  rcases le_total queue.length n with h | h
  · rw [Nat.min_eq_left h, List.drop_eq_nil_of_le h,
      List.drop_eq_nil_of_le le_rfl]
  · rw [Nat.min_eq_right h]

lemma zip_take_length (queue : List LockEntry) (ns : List State) :
    queue.zip (ns.take queue.length) = queue.zip ns := by
  induction queue generalizing ns with
  | nil => simp
  | cons e t ih =>
      cases ns with
      | nil => simp
      | cons x xs => simp [List.zip_cons_cons, ih]

/-- C4 (amended): the queue logic performs no length validation on the
strategy's output.  When the output is shorter than the queue, the entries
beyond it keep their previous states; when it is longer, the extra states are
ignored; in neither case is a `BrokenLock` logic error raised by
`run_queue_logic` (that error arises only from `assert_not_broken`). -/
theorem mismatched_strategy_output (current : HandleId)
    (queue : List LockEntry) (new_states : List State) (strat : Strategy) :
    ((set_and_enforce_preconditions current queue new_states).1).drop
        (min queue.length new_states.length)
      = queue.drop (min queue.length new_states.length) ∧
    set_and_enforce_preconditions current queue (new_states.take queue.length)
      = set_and_enforce_preconditions current queue new_states ∧
    (run_queue_logic strat current queue).err
      ≠ some StrategyLogicError.BrokenLock := by
  refine ⟨?_, ?_, ?_⟩
  · have hsep1 : (set_and_enforce_preconditions current queue new_states).1
        = ((queue.zip new_states).foldl (sepStep current)
            (noViolations, [])).2 ++ queue.drop new_states.length := rfl
    have hplen : (((queue.zip new_states).foldl (sepStep current)
        (noViolations, [])).2).length
          = min queue.length new_states.length := by
      rw [foldl_sepStep_length]
      simp [List.length_zip]
    rw [hsep1]
    conv_lhs => rw [← hplen]
    rw [List.drop_left]
    exact drop_length_min queue new_states.length
  · simp only [set_and_enforce_preconditions]
    rw [zip_take_length]
    have h1 : (new_states.take queue.length).length
        = min queue.length new_states.length := by
      simp [List.length_take, Nat.min_comm]
    rw [h1, ← drop_length_min]
  · rw [run_queue_logic_err]
    exact selectError_ne_broken _

/-- Counterexample to C4 as literally stated: the constant-empty strategy has
output shorter than the queue, yet `do_acquire` completes without any logic
error (so no panic) and the lock is not broken; a strategy with too long an
output likewise completes, the extra states being ignored. -/
theorem mismatched_strategy_output_counterexample :
    (do_acquire (fun _ => []) ⟨[], false⟩ 1 Method.Read).result
        = Except.ok State.Blocked ∧
    (do_acquire (fun _ => []) ⟨[], false⟩ 1 Method.Read).state.broken
        = false ∧
    (do_acquire (fun _ => [State.Ok, State.Ok, State.Ok]) ⟨[], false⟩ 1
        Method.Read).result = Except.ok State.Ok ∧
    (do_acquire (fun _ => [State.Ok, State.Ok, State.Ok]) ⟨[], false⟩ 1
        Method.Read).state.broken = false := by
  decide

lemma brokenAfter_of_ne (b : Bool) (e : StrategyLogicError)
    (h : e ≠ StrategyLogicError.BrokenLock) : brokenAfter b e = true := by
  cases e <;> first | rfl | exact absurd rfl h

lemma run_err_ne_brokenLock (strat : Strategy) (cur : HandleId)
    (queue : List LockEntry) :
    (run_queue_logic strat cur queue).err
      ≠ some StrategyLogicError.BrokenLock := by
  rw [run_queue_logic_err]
  exact selectError_ne_broken _

/-- C3: when the scheduler detects a `ConcurrentReadAndWrite`,
`ConcurrentMultipleWrites` or `BlockedAfterOkState` logic error it sets the
sticky broken bit and panics with that error; once broken, every subsequent
`acquire` or `try_acquire` panics immediately with `BrokenLock`, changing
nothing; `release` on a broken lock removes the releasing handle's entry
without re-running the strategy (the result does not depend on the strategy)
and without panicking. -/
theorem broken_lock_behavior (strat : Strategy) (s : SchedState)
    (newId rid : HandleId) (m : Method) :
    (s.broken = false →
      ∀ e, (run_queue_logic strat newId
          (s.queue ++ [⟨newId, m, State.Blocked⟩])).err = some e →
        (do_acquire strat s newId m).result = Except.error e ∧
        (do_acquire strat s newId m).state.broken = true ∧
        e ≠ StrategyLogicError.BrokenLock) ∧
    (s.broken = true →
      do_acquire strat s newId m
        = ⟨s, [], Except.error StrategyLogicError.BrokenLock⟩ ∧
      try_acquire strat s newId m
        = ⟨s, [], Except.error StrategyLogicError.BrokenLock⟩) ∧
    (s.broken = true →
      release strat s rid
        = (⟨removeFirstById s.queue rid, true⟩, [], ReleaseOutcome.ok)) ∧
    (s.broken = false →
      (s.queue.findIdx? (fun e => e.id == rid)).isSome = true →
      ∀ e, (run_queue_logic strat rid
          (removeFirstById s.queue rid)).err = some e →
        (release strat s rid).2.2 = ReleaseOutcome.logicErr e ∧
        (release strat s rid).1.broken = true ∧
        e ≠ StrategyLogicError.BrokenLock) := by
  refine ⟨?_, ?_, ?_, ?_⟩
  · intro hb e he
    have hne : e ≠ StrategyLogicError.BrokenLock := by
      intro hc
      rw [hc] at he
      exact run_err_ne_brokenLock strat newId _ he
    refine ⟨?_, ?_, hne⟩
    · simp [do_acquire, hb, he]
    · simp [do_acquire, hb, he, brokenAfter_of_ne _ e hne]
  · intro hb
    have hda : do_acquire strat s newId m
        = ⟨s, [], Except.error StrategyLogicError.BrokenLock⟩ := by
      simp [do_acquire, hb]
    exact ⟨hda, by simp [try_acquire, hda]⟩
  · intro hb
    simp [release, hb]
  · intro hb hfound e he
    have hne : e ≠ StrategyLogicError.BrokenLock := by
      intro hc
      rw [hc] at he
      exact run_err_ne_brokenLock strat rid _ he
    refine ⟨?_, ?_, hne⟩
    · simp [release, hb, hfound, he]
    · simp [release, hb, hfound, he, brokenAfter_of_ne _ e hne]

/-- Strategy admitting every waiter; used by the C3 witness (it triggers a
`ConcurrentReadAndWrite` when a writer joins an admitted reader). -/
def alwaysOk : Strategy := fun inp => inp.map fun _ => State.Ok

/-- Witness for C3 at concrete inputs: the always-Ok strategy makes an
acquire of Write(2) behind an admitted Read(1) panic with
`ConcurrentReadAndWrite` and break the lock; on a broken lock an acquire
panics with `BrokenLock` and a release just removes the entry. -/
theorem broken_lock_behavior_witness :
    ((do_acquire alwaysOk ⟨[⟨1, Method.Read, State.Ok⟩], false⟩ 2
        Method.Write).result
          = Except.error StrategyLogicError.ConcurrentReadAndWrite ∧
      (do_acquire alwaysOk ⟨[⟨1, Method.Read, State.Ok⟩], false⟩ 2
        Method.Write).state.broken = true) ∧
    do_acquire alwaysOk ⟨[⟨1, Method.Read, State.Ok⟩], true⟩ 2 Method.Write
      = ⟨⟨[⟨1, Method.Read, State.Ok⟩], true⟩, [],
          Except.error StrategyLogicError.BrokenLock⟩ ∧
    release alwaysOk ⟨[⟨1, Method.Read, State.Ok⟩], true⟩ 1
      = (⟨removeFirstById [⟨1, Method.Read, State.Ok⟩] 1, true⟩, [],
          ReleaseOutcome.ok) := by
  have h1 := broken_lock_behavior alwaysOk ⟨[⟨1, Method.Read, State.Ok⟩], false⟩
    2 1 Method.Write
  have h2 := broken_lock_behavior alwaysOk ⟨[⟨1, Method.Read, State.Ok⟩], true⟩
    2 1 Method.Write
  have hdet := h1.1 rfl StrategyLogicError.ConcurrentReadAndWrite (by decide)
  exact ⟨⟨hdet.1, hdet.2.1⟩, (h2.2.1 rfl).1, h2.2.2.1 rfl⟩

/-- Reader/writer counter of the primitive lock (`State::alloc` in
`src/rwlock/impls.rs`; the counter is a `usize`, modelled as `Nat` with the
platform's `usize::MAX` passed as `umax`; `usize::MIN` is 0).  Returns
whether the allocation succeeded together with the new counter value. -/
def counterAlloc (umax s : Nat) (m : Method) : Bool × Nat :=
  let available :=
    match m with
    | .Read => decide (s < umax - 1)
    | .Write => s == 0
  if available then
    (true, match m with | .Read => s + 1 | .Write => umax)
  else
    (false, s)

/-- `State::free` in `src/rwlock/impls.rs`: `none` models the `assert!`
panicking. -/
def counterFree (umax s : Nat) (m : Method) : Option Nat :=
  match m with
  | .Read => if 0 < s ∧ s < umax then some (s - 1) else none
  | .Write => if s = umax then some 0 else none

/-- C6 (amended): a read acquisition succeeds exactly while the counter is
below MAX−1, so the counter can reach MAX−1 (at most MAX−1 concurrent
readers) but never MAX — MAX, the writer marker, is the unreachable-by-reads
value that keeps reads and writes distinguishable. -/
theorem read_counter_ceiling (umax s : Nat) :
    ((counterAlloc umax s Method.Read).1 = true ↔ s < umax - 1) ∧
    (s ≤ umax - 1 → (counterAlloc umax s Method.Read).2 ≤ umax - 1) ∧
    (s < umax → (counterAlloc umax s Method.Read).2 < umax) := by
  by_cases h : s < umax - 1 <;> simp [counterAlloc, h] <;> omega

/-- Witness for C6 at a concrete input: on a 64-bit target with five readers,
a sixth read succeeds and the counter stays in range. -/
theorem read_counter_ceiling_witness :
    (5 ≤ 2 ^ 64 - 1 - 1 →
      (counterAlloc (2 ^ 64 - 1) 5 Method.Read).2 ≤ 2 ^ 64 - 1 - 1) ∧
    (counterAlloc (2 ^ 64 - 1) 5 Method.Read).1 = true :=
  ⟨(read_counter_ceiling (2 ^ 64 - 1) 5).2.1,
    (read_counter_ceiling (2 ^ 64 - 1) 5).1.mpr (by decide)⟩

/-- Counterexample to C6 as stated: on a 64-bit target (`usize::MAX`
= 2^64 − 1) with the counter at MAX−2, a read acquisition succeeds — it is
not refused — and the counter reaches MAX−1, so MAX−1 is not an unreachable
ceiling and up to MAX−1 readers (not MAX−2) can hold the lock. -/
theorem read_counter_ceiling_counterexample :
    (counterAlloc (2 ^ 64 - 1) (2 ^ 64 - 1 - 2) Method.Read).1 = true ∧
    (counterAlloc (2 ^ 64 - 1) (2 ^ 64 - 1 - 2) Method.Read).2
      = 2 ^ 64 - 1 - 1 := by
  constructor
  · simp [counterAlloc]
  · simp [counterAlloc]

/-- C10: for every counter state and method, if `alloc` succeeds then an
immediately following `free` passes its assertions and restores exactly the
original state; if `alloc` fails it leaves the state unchanged. -/
theorem alloc_free_roundtrip (umax s : Nat) (m : Method) :
    ((counterAlloc umax s m).1 = true →
      counterFree umax (counterAlloc umax s m).2 m = some s) ∧
    ((counterAlloc umax s m).1 = false → (counterAlloc umax s m).2 = s) := by
  cases m with
  | Read =>
      by_cases h : s < umax - 1
      · refine ⟨fun _ => ?_, fun hf => ?_⟩
        · have h2 : (counterAlloc umax s Method.Read).2 = s + 1 := by
            simp [counterAlloc, h]
          rw [h2, counterFree]
          rw [if_pos (by omega)]
          simp
        · simp [counterAlloc, h] at hf
      · refine ⟨fun ht => ?_, fun _ => ?_⟩
        · simp [counterAlloc, h] at ht
        · simp [counterAlloc, h]
  | Write =>
      by_cases h : s = 0
      · refine ⟨fun _ => ?_, fun hf => ?_⟩
        · have h2 : (counterAlloc umax s Method.Write).2 = umax := by
            simp [counterAlloc, h]
          rw [h2, counterFree]
          simp [h]
        · simp [counterAlloc, h] at hf
      · refine ⟨fun ht => ?_, fun _ => ?_⟩
        · simp [counterAlloc, h] at ht
        · simp [counterAlloc, h]

/-- Witness for C10 at a concrete input: allocating and freeing a writer on a
free lock (`umax` = 2^64 − 1) round-trips. -/
theorem alloc_free_roundtrip_witness :
    counterFree (2 ^ 64 - 1) (counterAlloc (2 ^ 64 - 1) 0 Method.Write).2
      Method.Write = some 0 :=
  (alloc_free_roundtrip (2 ^ 64 - 1) 0 Method.Write).1 (by decide)

/-- State of the spinning mutex (`BaseMutex` in `src/mutex/mod.rs`): the
atomic lock bit, the poison bit, and the guarded data (modelled as a `Nat`). -/
structure MutexState where
  lock : Bool
  poison : Bool
  data : Nat
deriving DecidableEq, Repr

/-- Outcome of `BaseMutex::try_lock` (`TryLockResult`, with the guard
abstracted away). -/
inductive TryLockOutcome
  | ok
  | poisoned
  | wouldBlock
deriving DecidableEq, Repr

/-- `BaseMutex::try_acquire_locker`: one compare-and-swap of the lock bit
`false → true`.  In this sequential model the CAS succeeds exactly when the
bit is clear; the kind of CAS used (strong/weak) is recorded by the callers. -/
def try_acquire_locker (s : MutexState) : MutexState × Bool :=
  if s.lock = false then ({ s with lock := true }, true) else (s, false)

/-- `BaseMutex::do_lock`: the freshly built guard is wrapped in `Poisoned`
when the poison bit is set. -/
def do_lock (s : MutexState) : TryLockOutcome :=
  if s.poison then .poisoned else .ok

/-- `BaseMutex::try_lock` (unhooked variant, the `()` hook never blocks): a
single strong CAS; on failure `WouldBlock`, on success wrap via `do_lock`.
The returned list records the kind of every CAS performed (`true` = strong). -/
def mutex_try_lock (s : MutexState) : MutexState × TryLockOutcome × List Bool :=
  let r := try_acquire_locker s
  if r.2 then (r.1, do_lock r.1, [true]) else (r.1, .wouldBlock, [true])

/-- C7: `try_lock` performs exactly one strong CAS; if the swap fails it
returns `WouldBlock` leaving the lock bit, the poison bit and the data
unchanged; if it succeeds it sets the lock bit (poison and data untouched)
and returns `Poisoned` when the poison bit is set, `Ok` otherwise. -/
theorem mutex_try_lock_spec (s : MutexState) :
    (mutex_try_lock s).2.2 = [true] ∧
    (s.lock = true →
      mutex_try_lock s = (s, TryLockOutcome.wouldBlock, [true])) ∧
    (s.lock = false →
      (mutex_try_lock s).1 = { s with lock := true } ∧
      (mutex_try_lock s).1.poison = s.poison ∧
      (mutex_try_lock s).1.data = s.data ∧
      (s.poison = true → (mutex_try_lock s).2.1 = TryLockOutcome.poisoned) ∧
      (s.poison = false → (mutex_try_lock s).2.1 = TryLockOutcome.ok)) := by
  rcases s with ⟨lk, po, d⟩
  cases lk <;> cases po <;>
    simp [mutex_try_lock, try_acquire_locker, do_lock]

/-- Witness for C7 at a concrete input: a locked mutex refuses with
`WouldBlock` and is left unchanged. -/
theorem mutex_try_lock_spec_witness :
    mutex_try_lock ⟨true, false, 7⟩
      = (⟨true, false, 7⟩, TryLockOutcome.wouldBlock, [true]) :=
  (mutex_try_lock_spec ⟨true, false, 7⟩).2.1 rfl

/-- Events of the `BaseMutex::lock` spin loop: a CAS attempt (`true` =
strong) or a `yield_now` call on the thread environment. -/
inductive LockEvent
  | cas (strong : Bool)
  | yieldCall
deriving DecidableEq, Repr

/-- Word-wrap modulus of `usize` on a 64-bit target: `attempts` is
incremented with `wrapping_add(1)`. -/
def USIZE_MOD : Nat := 2 ^ 64

/-- The acquisition loop of `BaseMutex::lock`, driven by an oracle telling
whether the CAS of a given attempt counter value succeeds (success depends on
the other threads, and a weak CAS may fail spuriously), with `fuel` bounding
the number of modelled iterations.  The attempt with counter `a` uses a
strong CAS iff `a % 32 == 0` (`STRONG_ATTEMPT_DIVIDER` is 32), `yield_now` is
called after every failed attempt, and the counter advances by
`wrapping_add(1)`.  Returns the event trace and whether the lock was
acquired within `fuel` attempts. -/
def lockLoop (oracle : Nat → Bool) : Nat → Nat → List LockEvent × Bool
  | 0, _ => ([], false)
  | fuel + 1, attempts =>
      let strong := attempts % 32 == 0
      if oracle attempts then
        ([LockEvent.cas strong], true)
      else
        let r := lockLoop oracle fuel ((attempts + 1) % USIZE_MOD)
        (LockEvent.cas strong :: LockEvent.yieldCall :: r.1, r.2)

/-- The kinds of the CAS attempts of a trace, in order (`true` = strong). -/
def casKinds (evs : List LockEvent) : List Bool :=
  evs.filterMap fun ev =>
    match ev with
    | .cas b => some b
    | .yieldCall => none

/-- True when the trace alternates CAS attempts and `yield_now` calls:
every two consecutive CAS attempts are separated by exactly one yield. -/
def alternatesCasYield : List LockEvent → Bool
  | [] => true
  | [LockEvent.cas _] => true
  | LockEvent.cas _ :: LockEvent.yieldCall :: rest => alternatesCasYield rest
  | _ => false

lemma lockLoop_succ_true (oracle : Nat → Bool) (f a0 : Nat)
    (ho : oracle a0 = true) :
    lockLoop oracle (f + 1) a0 = ([LockEvent.cas (a0 % 32 == 0)], true) := by
  simp [lockLoop, ho]

lemma lockLoop_succ_false (oracle : Nat → Bool) (f a0 : Nat)
    (ho : oracle a0 = false) :
    lockLoop oracle (f + 1) a0 =
      (LockEvent.cas (a0 % 32 == 0) :: LockEvent.yieldCall ::
        (lockLoop oracle f ((a0 + 1) % USIZE_MOD)).1,
       (lockLoop oracle f ((a0 + 1) % USIZE_MOD)).2) := by
  simp [lockLoop, ho]

lemma lockLoop_casKinds (oracle : Nat → Bool) :
    ∀ (fuel a0 : Nat), a0 < USIZE_MOD →
      ∀ (i : Nat), i < (casKinds (lockLoop oracle fuel a0).1).length →
        (casKinds (lockLoop oracle fuel a0).1).get? i
          = some ((a0 + i) % USIZE_MOD % 32 == 0) := by
  intro fuel
  induction fuel with
  | zero =>
      intro a0 _ i hi
      simp [lockLoop, casKinds] at hi
  | succ f ih =>
      intro a0 ha i hi
      by_cases ho : oracle a0 = true
      · rw [lockLoop_succ_true oracle f a0 ho] at hi ⊢
        have hz : i = 0 := by
          simp [casKinds] at hi
          omega
        subst hz
        simp [casKinds, Nat.mod_eq_of_lt ha]
      · have ho' : oracle a0 = false := by simpa using ho
        rw [lockLoop_succ_false oracle f a0 ho'] at hi ⊢
        have hck : casKinds (LockEvent.cas (a0 % 32 == 0) ::
            LockEvent.yieldCall ::
            (lockLoop oracle f ((a0 + 1) % USIZE_MOD)).1)
              = (a0 % 32 == 0) ::
                casKinds (lockLoop oracle f ((a0 + 1) % USIZE_MOD)).1 := by
          simp [casKinds]
        rw [hck] at hi ⊢
        cases i with
        | zero =>
            simp [Nat.mod_eq_of_lt ha]
        | succ j =>
            have hj : j < (casKinds
                (lockLoop oracle f ((a0 + 1) % USIZE_MOD)).1).length := by
              simpa using hi
            have ha' : (a0 + 1) % USIZE_MOD < USIZE_MOD :=
              Nat.mod_lt _ (by norm_num [USIZE_MOD])
            have hrec := ih ((a0 + 1) % USIZE_MOD) ha' j hj
            rw [List.get?_cons_succ, hrec]
            have harith : ((a0 + 1) % USIZE_MOD + j) % USIZE_MOD
                = (a0 + (j + 1)) % USIZE_MOD := by
              rw [Nat.mod_add_mod]
              congr 1
              omega
            rw [harith]

lemma lockLoop_alternates (oracle : Nat → Bool) :
    ∀ (fuel a0 : Nat),
      alternatesCasYield (lockLoop oracle fuel a0).1 = true := by
  intro fuel
  induction fuel with
  | zero => intro a0; rfl
  | succ f ih =>
      intro a0
      by_cases ho : oracle a0 = true
      · simp [lockLoop, ho, alternatesCasYield]
      · simp only [lockLoop, ho, Bool.false_eq_true, if_false]
        show alternatesCasYield (LockEvent.cas _ :: LockEvent.yieldCall :: _)
          = true
        rw [alternatesCasYield]
        exact ih _

/-- C8: for every oracle of CAS outcomes and every iteration bound, the
blocking lock loop's i-th CAS attempt is strong iff i is a multiple of 32 —
so the first attempt is strong, later attempts are weak, and every 32nd
attempt re-uses a strong CAS — and a `yield_now` call separates every two
consecutive attempts. -/
theorem mutex_lock_loop_spec (oracle : Nat → Bool) (fuel : Nat) :
    (∀ (i : Nat), i < (casKinds (lockLoop oracle fuel 0).1).length →
      (casKinds (lockLoop oracle fuel 0).1).get? i = some (i % 32 == 0)) ∧
    alternatesCasYield (lockLoop oracle fuel 0).1 = true := by
  constructor
  · intro i hi
    rw [lockLoop_casKinds oracle fuel 0 (by norm_num [USIZE_MOD]) i hi]
    have h1 : (0 + i) % USIZE_MOD % 32 = i % 32 := by
      rw [Nat.zero_add]
      exact Nat.mod_mod_of_dvd i (by norm_num [USIZE_MOD])
    rw [h1]
  · exact lockLoop_alternates oracle fuel 0

/-- Witness for C8 at a concrete input: with an oracle whose CAS succeeds at
attempt 2, the second CAS attempt (index 1) is weak. -/
theorem mutex_lock_loop_spec_witness :
    (casKinds (lockLoop (fun k => k == 2) 4 0).1).get? 1
      = some (1 % 32 == 0) :=
  (mutex_lock_loop_spec (fun k => k == 2) 4).1 1 (by decide)

/-- Shared state of the strategied lock (`RwLockInner` in
`src/strategied_rwlock/impls.rs`): the scheduler queue and the poison bit. -/
structure RwInner where
  sched : SchedState
  poisoned : Bool
deriving DecidableEq, Repr

/-- `RwLockInner::finish_read` (drop of a read guard): release on the queue;
the poison bit is untouched.  `none` models the release panicking, in which
case nothing after it runs. -/
def finish_read (strat : Strategy) (inner : RwInner) (h : HandleId) :
    Option RwInner :=
  match release strat inner.sched h with
  | (s', _, ReleaseOutcome.ok) => some ⟨s', inner.poisoned⟩
  | _ => none

/-- `RwLockInner::finish_write` (drop of a write guard): release on the
queue, then OR the dropping thread's `panicking()` flag into the poison bit
(`fetch_or`).  `none` models the release panicking, in which case the
`fetch_or` never runs. -/
def finish_write (strat : Strategy) (inner : RwInner) (h : HandleId)
    (poison : Bool) : Option RwInner :=
  match release strat inner.sched h with
  | (s', _, ReleaseOutcome.ok) => some ⟨s', inner.poisoned || poison⟩
  | _ => none

/-- State of the primitive reader/writer lock (`BaseRwLockInner` in
`src/rwlock/impls.rs`): the counter and the poison bit. -/
structure PrimRwState where
  counter : Nat
  poisoned : Bool
deriving DecidableEq, Repr

/-- `BaseRwLockInner::unlock`: free the counter inside the critical section,
then OR `poison` into the poison bit.  `none` models `free`'s assertion
panicking (the `fetch_or` then never runs).  A read-guard drop calls this
with `poison = false` unconditionally; a write-guard drop passes
`Env::panicking()`. -/
def prim_unlock (umax : Nat) (s : PrimRwState) (m : Method) (poison : Bool) :
    Option PrimRwState :=
  match counterFree umax s.counter m with
  | some c => some ⟨c, s.poisoned || poison⟩
  | none => none

/-- C9: for both lock variants, whenever a guard drop completes: dropping a
read guard never changes `is_poisoned()` — unwinding or not, the poison bit
is not touched (the primitive variant passes `poison = false`
unconditionally, the strategied variant does not touch the bit at all);
dropping a write guard while unwinding leaves `is_poisoned()` true, and
dropping it while not unwinding leaves the poison bit unchanged. -/
theorem guard_drop_poisoning (strat : Strategy) (inner : RwInner)
    (h : HandleId) (umax : Nat) (ps : PrimRwState) :
    (∀ r, finish_read strat inner h = some r →
      r.poisoned = inner.poisoned) ∧
    (∀ r, finish_write strat inner h true = some r → r.poisoned = true) ∧
    (∀ r, finish_write strat inner h false = some r →
      r.poisoned = inner.poisoned) ∧
    (∀ r, prim_unlock umax ps Method.Read false = some r →
      r.poisoned = ps.poisoned) ∧
    (∀ r, prim_unlock umax ps Method.Write true = some r →
      r.poisoned = true) ∧
    (∀ r, prim_unlock umax ps Method.Write false = some r →
      r.poisoned = ps.poisoned) := by
  refine ⟨?_, ?_, ?_, ?_, ?_, ?_⟩
  · intro r hr
    unfold finish_read at hr
    rcases hrel : release strat inner.sched h with ⟨s', ups, out⟩
    rw [hrel] at hr
    cases out <;> simp at hr <;> rw [← hr]
  · intro r hr
    unfold finish_write at hr
    rcases hrel : release strat inner.sched h with ⟨s', ups, out⟩
    rw [hrel] at hr
    cases out <;> simp at hr <;> rw [← hr] <;> simp
  · intro r hr
    unfold finish_write at hr
    rcases hrel : release strat inner.sched h with ⟨s', ups, out⟩
    rw [hrel] at hr
    cases out <;> simp at hr <;> rw [← hr]
  · intro r hr
    unfold prim_unlock at hr
    cases hfree : counterFree umax ps.counter Method.Read <;>
      rw [hfree] at hr <;> simp at hr <;> rw [← hr]
  · intro r hr
    unfold prim_unlock at hr
    cases hfree : counterFree umax ps.counter Method.Write <;>
      rw [hfree] at hr <;> simp at hr <;> rw [← hr] <;> simp
  · intro r hr
    unfold prim_unlock at hr
    cases hfree : counterFree umax ps.counter Method.Write <;>
      rw [hfree] at hr <;> simp at hr <;> rw [← hr]

/-- Witness for C9 at concrete inputs: with the always-blocking strategy, an
unwinding write-guard drop poisons the strategied lock, and a read-guard drop
on the primitive lock leaves the clean poison bit clean. -/
theorem guard_drop_poisoning_witness :
    (∀ r, finish_write (fun inp => inp.map fun _ => State.Blocked)
      ⟨⟨[⟨1, Method.Write, State.Ok⟩], false⟩, false⟩ 1 true = some r →
        r.poisoned = true) ∧
    (∀ r, prim_unlock (2 ^ 64 - 1) ⟨3, false⟩ Method.Read false = some r →
      r.poisoned = false) :=
  ⟨(guard_drop_poisoning (fun inp => inp.map fun _ => State.Blocked)
      ⟨⟨[⟨1, Method.Write, State.Ok⟩], false⟩, false⟩ 1 (2 ^ 64 - 1)
      ⟨3, false⟩).2.1,
    (guard_drop_poisoning (fun inp => inp.map fun _ => State.Blocked)
      ⟨⟨[⟨1, Method.Write, State.Ok⟩], false⟩, false⟩ 1 (2 ^ 64 - 1)
      ⟨3, false⟩).2.2.2.1⟩

/-- The `(id, method)` snapshot taken by `run_queue_logic` and handed to the
strategy. -/
def snapshot (q : List LockEntry) : List (HandleId × Method) :=
  q.map fun e => (e.id, e.method)

/-- The pair of `future_read`/`future_write` gates left by the `fair` loop
after walking a list of entries. -/
def gates : State → State → List (HandleId × Method) → State × State
  | fr, fw, [] => (fr, fw)
  | fr, fw, e :: l =>
      match e.2 with
      | .Read => gates fr .Blocked l
      | .Write => gates .Blocked .Blocked l

/-- A queue is fair-consistent when every entry carries exactly the state the
fair strategy assigns to its position — the situation in every queue reachable
through the scheduler when `fair` is the installed strategy. -/
def fairConsistent (q : List LockEntry) : Prop :=
  q.map (fun e => e.state) = fair (snapshot q)

lemma fairAux_append (l₁ : List (HandleId × Method)) :
    ∀ (l₂ : List (HandleId × Method)) (fr fw : State),
      fairAux fr fw (l₁ ++ l₂)
        = fairAux fr fw l₁
          ++ fairAux (gates fr fw l₁).1 (gates fr fw l₁).2 l₂ := by
  induction l₁ with
  | nil => intro l₂ fr fw; simp [fairAux, gates]
  | cons e t ih =>
      intro l₂ fr fw
      rcases e with ⟨id, m⟩
      cases m <;> simp [fairAux, gates, ih]

lemma fair_append_single (l : List (HandleId × Method)) (x : HandleId × Method) :
    fair (l ++ [x]) = fair l ++
      [match x.2 with
        | Method.Read => (gates State.Ok State.Ok l).1
        | Method.Write => (gates State.Ok State.Ok l).2] := by
  rw [fair_eq_fairAux, fair_eq_fairAux, fairAux_append]
  congr 1
  rcases x with ⟨id, m⟩
  cases m <;> simp [fairAux]

lemma gates_read_blocked (l : List (HandleId × Method)) :
    ∀ (fw : State), (gates State.Blocked fw l).1 = State.Blocked := by
  induction l with
  | nil => intro fw; rfl
  | cons e t ih =>
      intro fw
      rcases e with ⟨id, m⟩
      cases m <;> simp [gates, ih]

lemma gates_write_ok (l : List (HandleId × Method)) :
    ∀ (fr fw : State), (gates fr fw l).2 = State.Ok → l = [] := by
  induction l with
  | nil => intro fr fw _; rfl
  | cons e t ih =>
      intro fr fw h
      rcases e with ⟨id, m⟩
      cases m
      · have ht := ih fr .Blocked h
        subst ht
        simp [gates] at h
      · have ht := ih .Blocked .Blocked h
        subst ht
        simp [gates] at h

lemma gates_read_ok (l : List (HandleId × Method)) :
    ∀ (fw : State), (gates State.Ok fw l).1 = State.Ok →
      ∀ p ∈ l, p.2 = Method.Read := by
  induction l with
  | nil => intro fw _ p hp; cases hp
  | cons e t ih =>
      intro fw h p hp
      rcases e with ⟨id, m⟩
      cases m
      · rcases List.mem_cons.mp hp with rfl | hp'
        · rfl
        · exact ih .Blocked h p hp'
      · exfalso
        have hb := gates_read_blocked t State.Blocked
        rw [show gates State.Ok fw ((id, Method.Write) :: t)
            = gates State.Blocked State.Blocked t from rfl] at h
        rw [hb] at h
        cases h

lemma fairAux_states_inv (q : List LockEntry) :
    ∀ (fr fw : State),
      q.map (fun e => e.state) = fairAux fr fw (snapshot q) →
      (fw = State.Blocked → q.countP okWriteEntry = 0) ∧
      q.countP okWriteEntry ≤ 1 ∧
      (fr = State.Blocked → q.any okReadEntry = false) ∧
      ¬(q.any okWriteEntry ∧ q.any okReadEntry) := by
  induction q with
  | nil => intro fr fw _; simp
  | cons e t ih =>
      intro fr fw h
      rcases e with ⟨eid, em, es⟩
      cases em
      · -- head is a Read entry with state `fr`; tail gates are (fr, Blocked)
        have h' : es = fr ∧ t.map (fun e => e.state)
            = fairAux fr State.Blocked (snapshot t) := by
          simpa [snapshot, fairAux] using h
        obtain ⟨hes, ht⟩ := h'
        obtain ⟨ihw0, _, ihr, _⟩ := ih fr State.Blocked ht
        have hcw : t.countP okWriteEntry = 0 := ihw0 rfl
        have hanyw : t.any okWriteEntry = false := by
          rw [List.any_eq_false]
          intro x hx hpx
          have : 0 < t.countP okWriteEntry := by
            rw [List.countP_pos_iff]
            exact ⟨x, hx, hpx⟩
          omega
        refine ⟨?_, ?_, ?_, ?_⟩
        · intro _
          simp [okWriteEntry, Method.is_write, hcw]
        · simp [okWriteEntry, Method.is_write, hcw]
        · intro hfr
          subst hfr
          have : es = State.Blocked := hes
          simp [okReadEntry, this, State.is_ok, ihr rfl]
        · intro hc
          rcases hc with ⟨hw, _⟩
          simp only [List.any_cons, Bool.or_eq_true, okWriteEntry,
            Method.is_write, Bool.and_false] at hw
          rcases hw with hw | hw
          · cases hw
          · rw [hanyw] at hw; cases hw
      · -- head is a Write entry with state `fw`; tail gates are (Blocked, Blocked)
        have h' : es = fw ∧ t.map (fun e => e.state)
            = fairAux State.Blocked State.Blocked (snapshot t) := by
          simpa [snapshot, fairAux] using h
        obtain ⟨hes, ht⟩ := h'
        obtain ⟨ihw0, _, ihr, _⟩ := ih State.Blocked State.Blocked ht
        have hcw : t.countP okWriteEntry = 0 := ihw0 rfl
        have hanyr : t.any okReadEntry = false := ihr rfl
        refine ⟨?_, ?_, ?_, ?_⟩
        · intro hfw
          subst hfw
          have : es = State.Blocked := hes
          simp [okWriteEntry, this, State.is_ok, hcw]
        · cases es <;>
            simp [okWriteEntry, Method.is_write, State.is_ok, hcw]
        · intro _
          simp [okReadEntry, Method.is_read, hanyr]
        · intro hc
          rcases hc with ⟨_, hr⟩
          simp only [List.any_cons, Bool.or_eq_true, okReadEntry,
            Method.is_read, Bool.and_false] at hr
          rcases hr with hr | hr
          · cases hr
          · rw [hanyr] at hr; cases hr

lemma fair_consistent_admissible (q : List LockEntry)
    (hc : fairConsistent q) : Admissible q := by
  unfold fairConsistent at hc
  rw [fair_eq_fairAux] at hc
  obtain ⟨_, h2, _, h4⟩ := fairAux_states_inv q State.Ok State.Ok hc
  exact ⟨h2, h4⟩

lemma zip_self_map (q : List LockEntry) :
    q.zip (q.map fun e => e.state) = q.map fun e => (e, e.state) := by
  induction q with
  | nil => rfl
  | cons e t ih => simp [ih]

lemma applyFix_self (cur : HandleId) (v : Violations) (e : LockEntry) :
    applyFix cur v e e.state = (v, e.state) := by
  unfold applyFix
  rcases e with ⟨id, m, st⟩
  cases st <;> simp [State.is_ok, State.is_blocked]

lemma selectError_eq_none (v : Violations)
    (h1 : v.err_blocked_after_ok_state = false)
    (h2 : v.err_concurrent_read_and_write = false)
    (h3 : v.err_concurent_multiple_writes = false) : selectError v = none := by
  simp [selectError, h1, h2, h3]

lemma foldl_sepStep_snapshot (cur : HandleId) (l : List (LockEntry × State)) :
    ∀ (v : Violations) (done : List LockEntry),
      snapshot ((l.foldl (sepStep cur) (v, done)).2)
        = snapshot done ++ l.map (fun p => (p.1.id, p.1.method)) := by
  induction l with
  | nil => intro v done; simp
  | cons p t ih =>
      intro v done
      show snapshot ((t.foldl (sepStep cur) (sepStep cur (v, done) p)).2) = _
      rcases h : sepStep cur (v, done) p with ⟨v', done'⟩
      have h2 := congrArg Prod.snd h
      rw [sepStep_snd] at h2
      simp only [Prod.snd] at h2
      rw [ih v' done', ← h2]
      simp [snapshot]

lemma zip_fst_map_take (q : List LockEntry) :
    ∀ (ns : List State),
      (q.zip ns).map (fun p => (p.1.id, p.1.method))
        = snapshot (q.take ns.length) := by
  induction q with
  | nil => intro ns; simp [snapshot]
  | cons e t ih =>
      intro ns
      cases ns with
      | nil => simp [snapshot]
      | cons x xs => simp [snapshot, ih xs, List.take_succ_cons]

lemma sep_snapshot (cur : HandleId) (queue : List LockEntry)
    (ns : List State) :
    snapshot (set_and_enforce_preconditions cur queue ns).1 = snapshot queue := by
  show snapshot (((queue.zip ns).foldl (sepStep cur) (noViolations, [])).2
    ++ queue.drop ns.length) = snapshot queue
  unfold snapshot
  rw [List.map_append]
  have h1 := foldl_sepStep_snapshot cur (queue.zip ns) noViolations []
  unfold snapshot at h1
  rw [h1]
  have h2 := zip_fst_map_take queue ns
  unfold snapshot at h2
  rw [h2]
  simp only [List.map_nil, List.nil_append]
  rw [← List.map_append, List.take_append_drop]

lemma run_snapshot (strat : Strategy) (cur : HandleId)
    (queue : List LockEntry) :
    snapshot (run_queue_logic strat cur queue).queue = snapshot queue := by
  rw [run_queue_logic_queue]
  exact sep_snapshot cur queue _

lemma sep_self_fold (cur : HandleId) (suf : List LockEntry) :
    ∀ (pre : List LockEntry) (v : Violations),
      Admissible (pre ++ suf) →
      v.err_blocked_after_ok_state = false →
      v.err_concurrent_read_and_write = false →
      v.err_concurent_multiple_writes = false →
      v.has_ok_write = pre.any okWriteEntry →
      v.has_ok_read = pre.any okReadEntry →
      ((suf.map fun e => (e, e.state)).foldl (sepStep cur) (v, pre)).2
          = pre ++ suf ∧
      (((suf.map fun e => (e, e.state)).foldl (sepStep cur)
          (v, pre)).1).err_blocked_after_ok_state = false ∧
      (((suf.map fun e => (e, e.state)).foldl (sepStep cur)
          (v, pre)).1).err_concurrent_read_and_write = false ∧
      (((suf.map fun e => (e, e.state)).foldl (sepStep cur)
          (v, pre)).1).err_concurent_multiple_writes = false ∧
      (((suf.map fun e => (e, e.state)).foldl (sepStep cur)
          (v, pre)).1).has_ok_write = (pre ++ suf).any okWriteEntry ∧
      (((suf.map fun e => (e, e.state)).foldl (sepStep cur)
          (v, pre)).1).has_ok_read = (pre ++ suf).any okReadEntry := by
  induction suf with
  | nil =>
      intro pre v hA h1 h2 h3 h4 h5
      refine ⟨by simp, h1, h2, h3, by simpa using h4, by simpa using h5⟩
  | cons e t ih =>
      intro pre v hA h1 h2 h3 h4 h5
      rcases e with ⟨eid, em, es⟩
      have hmem : (⟨eid, em, es⟩ : LockEntry) ∈ pre ++ ⟨eid, em, es⟩ :: t := by
        simp
      have hstep : sepStep cur (v, pre) (⟨eid, em, es⟩, es)
          = ((sepCore v em es).1, pre ++ [⟨eid, em, (sepCore v em es).2⟩]) := by
        show ((sepCore (applyFix cur v ⟨eid, em, es⟩ es).1 em
            (applyFix cur v ⟨eid, em, es⟩ es).2).1,
          pre ++ [⟨eid, em, (sepCore (applyFix cur v ⟨eid, em, es⟩ es).1 em
            (applyFix cur v ⟨eid, em, es⟩ es).2).2⟩]) = _
        rw [show applyFix cur v ⟨eid, em, es⟩ es = (v, es) from
          applyFix_self cur v ⟨eid, em, es⟩]
      cases es with
      | Blocked =>
          have hcore : sepCore v em State.Blocked = (v, State.Blocked) :=
            sepCore_blocked v em
          have hstep' : sepStep cur (v, pre) (⟨eid, em, State.Blocked⟩,
              State.Blocked) = (v, pre ++ [⟨eid, em, State.Blocked⟩]) := by
            rw [hstep, hcore]
          have hAssoc : (pre ++ [⟨eid, em, State.Blocked⟩]) ++ t
              = pre ++ ⟨eid, em, State.Blocked⟩ :: t := by simp
          have hA' : Admissible ((pre ++ [⟨eid, em, State.Blocked⟩]) ++ t) := by
            rw [hAssoc]; exact hA
          have h4' : v.has_ok_write
              = (pre ++ [(⟨eid, em, State.Blocked⟩ : LockEntry)]).any okWriteEntry := by
            simp [List.any_append, okWriteEntry, State.is_ok, h4]
          have h5' : v.has_ok_read
              = (pre ++ [(⟨eid, em, State.Blocked⟩ : LockEntry)]).any okReadEntry := by
            simp [List.any_append, okReadEntry, State.is_ok, h5]
          have hrec := ih (pre ++ [⟨eid, em, State.Blocked⟩]) v hA' h1 h2 h3
            h4' h5'
          simp only [List.map_cons, List.foldl_cons]
          rw [hstep']
          rw [hAssoc] at hrec
          exact hrec
      | Ok =>
          cases em with
          | Read =>
              -- an admitted reader: no admitted writer may exist anywhere
              have hpw : pre.any okWriteEntry = false := by
                by_contra hcon
                have hw : (pre ++ ⟨eid, Method.Read, State.Ok⟩ :: t).any
                    okWriteEntry = true := by
                  rw [List.any_append]
                  simp only [Bool.or_eq_true]
                  left
                  simpa using hcon
                have hr : (pre ++ ⟨eid, Method.Read, State.Ok⟩ :: t).any
                    okReadEntry = true := by
                  rw [List.any_eq_true]
                  exact ⟨_, hmem, by simp [okReadEntry, State.is_ok,
                    Method.is_read]⟩
                exact hA.2 ⟨hw, hr⟩
              have hcore : sepCore v Method.Read State.Ok
                  = (applyFlags v Method.Read, State.Ok) := by
                rw [sepCore_ok_read]
                rw [if_neg]
                simp [h2, h3, h4, hpw]
              have hstep' : sepStep cur (v, pre) (⟨eid, Method.Read, State.Ok⟩,
                  State.Ok) = (applyFlags v Method.Read,
                    pre ++ [⟨eid, Method.Read, State.Ok⟩]) := by
                rw [hstep, hcore]
              have hAssoc : (pre ++ [⟨eid, Method.Read, State.Ok⟩]) ++ t
                  = pre ++ ⟨eid, Method.Read, State.Ok⟩ :: t := by simp
              have hA' : Admissible ((pre ++ [⟨eid, Method.Read, State.Ok⟩])
                  ++ t) := by
                rw [hAssoc]; exact hA
              have h1' : (applyFlags v Method.Read).err_blocked_after_ok_state
                  = false := h1
              have h2' : (applyFlags v Method.Read).err_concurrent_read_and_write
                  = false := by
                show (v.err_concurrent_read_and_write || v.has_ok_write) = false
                simp [h2, h4, hpw]
              have h3' : (applyFlags v Method.Read).err_concurent_multiple_writes
                  = false := h3
              have h4' : (applyFlags v Method.Read).has_ok_write
                  = (pre ++ [(⟨eid, Method.Read, State.Ok⟩ : LockEntry)]).any okWriteEntry := by
                show v.has_ok_write = _
                simp [List.any_append, okWriteEntry, Method.is_write, h4]
              have h5' : (applyFlags v Method.Read).has_ok_read
                  = (pre ++ [(⟨eid, Method.Read, State.Ok⟩ : LockEntry)]).any okReadEntry := by
                show true = _
                simp [List.any_append, okReadEntry, Method.is_read,
                  State.is_ok]
              have hrec := ih (pre ++ [⟨eid, Method.Read, State.Ok⟩])
                (applyFlags v Method.Read) hA' h1' h2' h3' h4' h5'
              simp only [List.map_cons, List.foldl_cons]
              rw [hstep']
              rw [hAssoc] at hrec
              exact hrec
          | Write =>
              -- an admitted writer: no other admitted entry may exist
              have hpr : pre.any okReadEntry = false := by
                by_contra hcon
                have hr : (pre ++ ⟨eid, Method.Write, State.Ok⟩ :: t).any
                    okReadEntry = true := by
                  rw [List.any_append]
                  simp only [Bool.or_eq_true]
                  left
                  simpa using hcon
                have hw : (pre ++ ⟨eid, Method.Write, State.Ok⟩ :: t).any
                    okWriteEntry = true := by
                  rw [List.any_eq_true]
                  exact ⟨_, hmem, by simp [okWriteEntry, State.is_ok,
                    Method.is_write]⟩
                exact hA.2 ⟨hw, hr⟩
              have hpw : pre.any okWriteEntry = false := by
                by_contra hcon
                have hcon' : pre.any okWriteEntry = true := by
                  simpa using hcon
                have hc1 : 0 < pre.countP okWriteEntry := by
                  rw [List.countP_pos_iff]
                  rw [List.any_eq_true] at hcon'
                  exact hcon'
                have hc2 : 0 < (⟨eid, Method.Write, State.Ok⟩ :: t).countP
                    okWriteEntry := by
                  rw [List.countP_pos_iff]
                  exact ⟨⟨eid, Method.Write, State.Ok⟩, by simp,
                    by simp [okWriteEntry, State.is_ok, Method.is_write]⟩
                have := hA.1
                rw [List.countP_append] at this
                omega
              have hcore : sepCore v Method.Write State.Ok
                  = (applyFlags v Method.Write, State.Ok) := by
                rw [sepCore_ok_write]
                rw [if_neg]
                simp [h2, h3, h4, h5, hpw, hpr]
              have hstep' : sepStep cur (v, pre)
                  (⟨eid, Method.Write, State.Ok⟩, State.Ok)
                  = (applyFlags v Method.Write,
                      pre ++ [⟨eid, Method.Write, State.Ok⟩]) := by
                rw [hstep, hcore]
              have hAssoc : (pre ++ [⟨eid, Method.Write, State.Ok⟩]) ++ t
                  = pre ++ ⟨eid, Method.Write, State.Ok⟩ :: t := by simp
              have hA' : Admissible ((pre ++ [⟨eid, Method.Write, State.Ok⟩])
                  ++ t) := by
                rw [hAssoc]; exact hA
              have h1' : (applyFlags v Method.Write).err_blocked_after_ok_state
                  = false := h1
              have h2' : (applyFlags v Method.Write).err_concurrent_read_and_write
                  = false := by
                show (v.err_concurrent_read_and_write || v.has_ok_read) = false
                simp [h2, h5, hpr]
              have h3' : (applyFlags v Method.Write).err_concurent_multiple_writes
                  = false := by
                show (v.err_concurent_multiple_writes || v.has_ok_write) = false
                simp [h3, h4, hpw]
              have h4' : (applyFlags v Method.Write).has_ok_write
                  = (pre ++ [(⟨eid, Method.Write, State.Ok⟩ : LockEntry)]).any
                      okWriteEntry := by
                show true = _
                simp [List.any_append, okWriteEntry, Method.is_write,
                  State.is_ok]
              have h5' : (applyFlags v Method.Write).has_ok_read
                  = (pre ++ [(⟨eid, Method.Write, State.Ok⟩ : LockEntry)]).any
                      okReadEntry := by
                show v.has_ok_read = _
                simp [List.any_append, okReadEntry, Method.is_read, h5]
              have hrec := ih (pre ++ [⟨eid, Method.Write, State.Ok⟩])
                (applyFlags v Method.Write) hA' h1' h2' h3' h4' h5'
              simp only [List.map_cons, List.foldl_cons]
              rw [hstep']
              rw [hAssoc] at hrec
              exact hrec

/-- When the strategy's output assigns to every entry exactly its current
state and the queue is admissible, `set_and_enforce_preconditions` changes
nothing and detects no error. -/
lemma sep_self_fixpoint (cur : HandleId) (queue : List LockEntry)
    (hadm : Admissible queue) :
    set_and_enforce_preconditions cur queue (queue.map fun e => e.state)
      = (queue, none) := by
  have hfold := sep_self_fold cur queue [] noViolations (by simpa using hadm)
    rfl rfl rfl (by simp [noViolations]) (by simp [noViolations])
  show (((queue.zip (queue.map fun e => e.state)).foldl (sepStep cur)
      (noViolations, [])).2 ++ queue.drop (queue.map fun e => e.state).length,
    selectError ((queue.zip (queue.map fun e => e.state)).foldl (sepStep cur)
      (noViolations, [])).1) = (queue, none)
  rw [zip_self_map]
  have hdrop : queue.drop (queue.map fun e => e.state).length = [] := by
    rw [List.drop_eq_nil_of_le]
    simp
  rw [hdrop, List.append_nil]
  rw [hfold.1, selectError_eq_none _ hfold.2.1 hfold.2.2.1 hfold.2.2.2.1]
  simp

lemma find_append_fresh (q : List LockEntry) (id : HandleId) (e : LockEntry)
    (hfresh : ∀ x ∈ q, x.id ≠ id) (he : e.id = id) :
    (q ++ [e]).find? (fun x => x.id == id) = some e := by
  induction q with
  | nil =>
      simp [List.find?, he]
  | cons x t ih =>
      have hx : (x.id == id) = false := by
        simp
        exact hfresh x (by simp)
      rw [List.cons_append, List.find?_cons_of_neg _ (by simp [hx])]
      exact ih fun y hy => hfresh y (by simp [hy])

/-- The fair gate applying to a fresh entry appended at the back of a queue
with the given snapshot. -/
def fairGateFor (snap : List (HandleId × Method)) : Method → State
  | .Read => (gates State.Ok State.Ok snap).1
  | .Write => (gates State.Ok State.Ok snap).2

lemma run_fair_extended (qs : List LockEntry) (newId : HandleId) (m : Method)
    (v : State) (hc : fairConsistent qs)
    (hv : v = fairGateFor (snapshot qs) m) :
    run_queue_logic fair newId (qs ++ [(⟨newId, m, State.Blocked⟩ : LockEntry)])
      = ⟨qs ++ [(⟨newId, m, v⟩ : LockEntry)], none,
          ((qs ++ [(⟨newId, m, v⟩ : LockEntry)]).filter
            (fun e => e.id != newId && e.state.is_ok)).map (fun e => e.id)⟩ := by
  have hadm := fair_consistent_admissible qs hc
  have hns : fair ((qs ++ [(⟨newId, m, State.Blocked⟩ : LockEntry)]).map
      fun e => (e.id, e.method)) = (qs.map fun e => e.state) ++ [v] := by
    show fair (snapshot (qs ++ [(⟨newId, m, State.Blocked⟩ : LockEntry)])) = _
    have h1 : snapshot (qs ++ [(⟨newId, m, State.Blocked⟩ : LockEntry)])
        = snapshot qs ++ [(newId, m)] := by
      simp [snapshot]
    rw [h1, fair_append_single]
    rw [show fair (snapshot qs) = qs.map fun e => e.state from hc.symm]
    congr 1
    rw [hv]
    cases m <;> rfl
  have hzip : (qs ++ [(⟨newId, m, State.Blocked⟩ : LockEntry)]).zip
      ((qs.map fun e => e.state) ++ [v])
        = (qs.map fun e => (e, e.state))
          ++ [((⟨newId, m, State.Blocked⟩ : LockEntry), v)] := by
    rw [List.zip_append (by simp), zip_self_map]
    simp
  have hfold := sep_self_fold newId qs [] noViolations (by simpa using hadm)
    rfl rfl rfl (by simp [noViolations]) (by simp [noViolations])
  have hfold2 : ((qs.map fun e => (e, e.state)).foldl (sepStep newId)
      (noViolations, [])).2 = qs := by
    rw [hfold.1]
    simp
  have hfix : applyFix newId
      ((qs.map fun e => (e, e.state)).foldl (sepStep newId)
        (noViolations, [])).1 ⟨newId, m, State.Blocked⟩ v
      = (((qs.map fun e => (e, e.state)).foldl (sepStep newId)
          (noViolations, [])).1, v) := by
    unfold applyFix
    simp [State.is_ok]
  have hsep : set_and_enforce_preconditions newId
      (qs ++ [(⟨newId, m, State.Blocked⟩ : LockEntry)])
      ((qs.map fun e => e.state) ++ [v])
        = (qs ++ [(⟨newId, m, v⟩ : LockEntry)], none) := by
    show ((((qs ++ [(⟨newId, m, State.Blocked⟩ : LockEntry)]).zip
        ((qs.map fun e => e.state) ++ [v])).foldl (sepStep newId)
          (noViolations, [])).2
        ++ (qs ++ [(⟨newId, m, State.Blocked⟩ : LockEntry)]).drop
            ((qs.map fun e => e.state) ++ [v]).length,
      selectError (((qs ++ [(⟨newId, m, State.Blocked⟩ : LockEntry)]).zip
        ((qs.map fun e => e.state) ++ [v])).foldl (sepStep newId)
          (noViolations, [])).1) = _
    rw [hzip, List.foldl_append]
    have hdrop : (qs ++ [(⟨newId, m, State.Blocked⟩ : LockEntry)]).drop
        ((qs.map fun e => e.state) ++ [v]).length = [] := by
      rw [List.drop_eq_nil_of_le]
      simp
    rw [hdrop, List.append_nil]
    rw [List.foldl_cons, List.foldl_nil]
    simp only [sepStep]
    rw [hfix]
    rw [hfold2]
    cases hvv : v with
    | Blocked =>
        rw [sepCore_blocked]
        refine Prod.ext ?_ ?_
        · rfl
        · show selectError _ = none
          exact selectError_eq_none _ hfold.2.1 hfold.2.2.1 hfold.2.2.2.1
    | Ok =>
        cases m with
        | Read =>
            -- the fair gate admitted a reader at the back: every entry ahead
            -- is a Read, so no writer is admitted
            have hgate : (gates State.Ok State.Ok (snapshot qs)).1
                = State.Ok := by
              rw [hvv] at hv
              exact hv.symm
            have hallread := gates_read_ok (snapshot qs) State.Ok hgate
            have hqw : qs.any okWriteEntry = false := by
              rw [List.any_eq_false]
              intro e he hpe
              have hmem : (e.id, e.method) ∈ snapshot qs :=
                List.mem_map.mpr ⟨e, he, rfl⟩
              have hthis : e.method = Method.Read := by
                have := hallread (e.id, e.method) hmem
                simpa using this
              simp only [okWriteEntry, Bool.and_eq_true] at hpe
              rw [hthis] at hpe
              simp [Method.is_write] at hpe
            rw [sepCore_ok_read, if_neg ?hc1]
            case hc1 =>
              intro hcontra
              rw [hfold.2.2.1, hfold.2.2.2.1, hfold.2.2.2.2.1] at hcontra
              simp [hqw] at hcontra
            refine Prod.ext ?_ ?_
            · rfl
            · show selectError _ = none
              refine selectError_eq_none _ ?_ ?_ ?_
              · exact hfold.2.1
              · show ((((qs.map fun e => (e, e.state)).foldl (sepStep newId)
                    (noViolations, [])).1.err_concurrent_read_and_write)
                  || (((qs.map fun e => (e, e.state)).foldl (sepStep newId)
                    (noViolations, [])).1.has_ok_write)) = false
                rw [hfold.2.2.1, hfold.2.2.2.2.1]
                simp [hqw]
              · exact hfold.2.2.2.1
        | Write =>
            -- the fair gate admitted a writer at the back: the queue is empty
            have hgate : (gates State.Ok State.Ok (snapshot qs)).2
                = State.Ok := by
              rw [hvv] at hv
              exact hv.symm
            have hnil : snapshot qs = [] :=
              gates_write_ok (snapshot qs) State.Ok State.Ok hgate
            have hqs : qs = [] := by
              unfold snapshot at hnil
              exact List.map_eq_nil_iff.mp hnil
            subst hqs
            simp [sepCore, applyFlags, noViolations, selectError, State.is_ok]
  -- assemble the run result
  simp only [run_queue_logic]
  rw [hns, hsep]

instance (q : List LockEntry) : Decidable (fairConsistent q) :=
  inferInstanceAs
    (Decidable (q.map (fun e => e.state) = fair (snapshot q)))

lemma do_acquire_result_ok (strat : Strategy) (s : SchedState)
    (newId : HandleId) (m : Method) (st : State)
    (h : (do_acquire strat s newId m).result = Except.ok st) :
    s.broken = false ∧
    (run_queue_logic strat newId
      (s.queue ++ [⟨newId, m, State.Blocked⟩])).err = none := by
  by_cases hb : s.broken = true
  · rw [show do_acquire strat s newId m
        = ⟨s, [], Except.error StrategyLogicError.BrokenLock⟩ from by
      simp [do_acquire, hb]] at h
    simp at h
  · have hb' : s.broken = false := by simpa using hb
    refine ⟨hb', ?_⟩
    cases herr : (run_queue_logic strat newId
        (s.queue ++ [⟨newId, m, State.Blocked⟩])).err with
    | none => rfl
    | some e =>
        rw [show (do_acquire strat s newId m).result = Except.error e from by
          simp [do_acquire, hb', herr]] at h
        simp at h

lemma try_acquire_blocked_parts (strat : Strategy) (s : SchedState)
    (newId : HandleId) (m : Method)
    (hres : (try_acquire strat s newId m).result = Except.ok none) :
    (do_acquire strat s newId m).result = Except.ok State.Blocked ∧
    (try_acquire strat s newId m).state.queue
      = (do_acquire strat s newId m).state.queue.dropLast := by
  cases hr : (do_acquire strat s newId m).result with
  | error e =>
      simp [try_acquire, hr] at hres
  | ok st =>
      cases st with
      | Ok =>
          simp [try_acquire, hr, State.is_blocked] at hres
      | Blocked =>
          refine ⟨rfl, ?_⟩
          simp [try_acquire, hr, State.is_blocked]

/-- C5 (amended): when `try_acquire` returns the Blocked (`WouldBlock`)
outcome, the trying entry — pushed last — is removed again, so for every
strategy the queue afterwards holds exactly the entries (ids and methods in
order) from before the call; their states, however, are re-assigned by the
strategy invocation on the extended queue, which for an arbitrary strategy
can admit and unpark other waiters (see the counterexample).  Under the
`fair` strategy, for a fresh handle id and a queue whose states agree with
the fair decision on its snapshot (as in every fair-reachable queue), a
Blocked `try_acquire` leaves the scheduler state exactly as it was, and the
only `unpark` calls go to entries that were already admitted before the
call. -/
theorem try_acquire_blocked_frame (s : SchedState) (newId : HandleId)
    (m : Method) (hb : s.broken = false)
    (hfresh : ∀ e ∈ s.queue, e.id ≠ newId)
    (hc : fairConsistent s.queue) :
    ((try_acquire fair s newId m).result = Except.ok none →
      (try_acquire fair s newId m).state = s ∧
      ∀ i ∈ (try_acquire fair s newId m).unparks,
        ∃ e ∈ s.queue, e.id = i ∧ e.state = State.Ok) ∧
    (∀ (strat : Strategy),
      (try_acquire strat s newId m).result = Except.ok none →
      snapshot (try_acquire strat s newId m).state.queue
        = snapshot s.queue) := by
  constructor
  · intro hres
    obtain ⟨qs, b⟩ := s
    have hb' : b = false := hb
    subst hb'
    have hrun := run_fair_extended qs newId m
      (fairGateFor (snapshot qs) m) hc rfl
    generalize hveq : fairGateFor (snapshot qs) m = v at hrun
    have hpoll : poll (qs ++ [(⟨newId, m, v⟩ : LockEntry)]) newId
        = some v := by
      unfold poll
      rw [find_append_fresh qs newId ⟨newId, m, v⟩ hfresh rfl]
      rfl
    have hdo : do_acquire fair ⟨qs, false⟩ newId m
        = ⟨⟨qs ++ [⟨newId, m, v⟩], false⟩,
            ((qs ++ [(⟨newId, m, v⟩ : LockEntry)]).filter
              (fun e => e.id != newId && e.state.is_ok)).map (fun e => e.id),
            Except.ok v⟩ := by
      simp [do_acquire, hrun, hpoll]
    cases v with
    | Ok =>
        have htry : (try_acquire fair ⟨qs, false⟩ newId m).result
            = Except.ok (some newId) := by
          simp [try_acquire, hdo, State.is_blocked]
        rw [htry] at hres
        simp at hres
    | Blocked =>
        have htry : try_acquire fair ⟨qs, false⟩ newId m
            = ⟨⟨(qs ++ [(⟨newId, m, State.Blocked⟩ : LockEntry)]).dropLast,
                false⟩,
              ((qs ++ [(⟨newId, m, State.Blocked⟩ : LockEntry)]).filter
                (fun e => e.id != newId && e.state.is_ok)).map
                  (fun e => e.id),
              Except.ok none⟩ := by
          simp [try_acquire, hdo, State.is_blocked]
        constructor
        · rw [htry]
          show (⟨(qs ++ [(⟨newId, m, State.Blocked⟩ : LockEntry)]).dropLast,
            false⟩ : SchedState) = ⟨qs, false⟩
          rw [List.dropLast_concat]
        · intro i hi
          rw [htry] at hi
          simp only [List.mem_map] at hi
          obtain ⟨e, hef, heid⟩ := hi
          rw [List.mem_filter] at hef
          obtain ⟨hemem, hpred⟩ := hef
          rcases List.mem_append.mp hemem with he | he
          · refine ⟨e, he, heid, ?_⟩
            simp only [Bool.and_eq_true] at hpred
            cases hst : e.state with
            | Ok => rfl
            | Blocked =>
                rw [hst] at hpred
                simp [State.is_ok] at hpred
          · exfalso
            have : e = ⟨newId, m, State.Blocked⟩ := by simpa using he
            subst this
            simp [State.is_ok] at hpred
  · intro strat hres
    obtain ⟨hdo, hq⟩ := try_acquire_blocked_parts strat s newId m hres
    obtain ⟨hb', herr⟩ :=
      do_acquire_result_ok strat s newId m State.Blocked hdo
    rw [hq, do_acquire_state_queue strat s newId m hb']
    have h1 : snapshot ((run_queue_logic strat newId
        (s.queue ++ [⟨newId, m, State.Blocked⟩])).queue.dropLast)
          = (snapshot ((run_queue_logic strat newId
              (s.queue ++ [⟨newId, m, State.Blocked⟩])).queue)).dropLast := by
      unfold snapshot
      exact List.map_dropLast _ _
    rw [h1, run_snapshot]
    have h2 : snapshot (s.queue ++ [⟨newId, m, State.Blocked⟩])
        = snapshot s.queue ++ [(newId, m)] := by
      simp [snapshot]
    rw [h2, List.dropLast_concat]

/-- Witness for C5 at a concrete input: with an admitted writer in the queue,
a blocked fair `try_acquire` of a reader leaves the scheduler state
untouched. -/
theorem try_acquire_blocked_frame_witness :
    (try_acquire fair ⟨[⟨1, Method.Write, State.Ok⟩], false⟩ 2
      Method.Read).state = ⟨[⟨1, Method.Write, State.Ok⟩], false⟩ :=
  ((try_acquire_blocked_frame ⟨[⟨1, Method.Write, State.Ok⟩], false⟩ 2
      Method.Read rfl (by decide) (by decide)).1 (by decide)).1

/-- Strategy refuting C5 as literally stated: it blocks a lone waiter but
admits the first waiter as soon as a second one arrives. -/
def promoteOnSecond : Strategy := fun inp =>
  match inp.length with
  | 1 => [State.Blocked]
  | 2 => [State.Ok, State.Blocked]
  | _ => inp.map fun _ => State.Blocked

/-- Counterexample to C5 as literally stated: under `promoteOnSecond`, a
`try_acquire` that returns `WouldBlock` nevertheless admits and unparks the
other waiter — the queue is not in the state it had before the call. -/
theorem try_acquire_blocked_frame_counterexample :
    (try_acquire promoteOnSecond
      (do_acquire promoteOnSecond ⟨[], false⟩ 1 Method.Read).state
      2 Method.Read).result = Except.ok none ∧
    (try_acquire promoteOnSecond
      (do_acquire promoteOnSecond ⟨[], false⟩ 1 Method.Read).state
      2 Method.Read).state.queue
        ≠ (do_acquire promoteOnSecond ⟨[], false⟩ 1 Method.Read).state.queue ∧
    (try_acquire promoteOnSecond
      (do_acquire promoteOnSecond ⟨[], false⟩ 1 Method.Read).state
      2 Method.Read).unparks = [1] := by
  decide

end Powerlocks
